import Mathlib

/-!
# Storage engine and collector cursor of the proxy harvester

A shallow embedding of `storage/boltDbStorage.go` (a bolt bucket mirrored in a
`sync.Map`, with an `int32` entry counter) and of the URL cursor of
`collector/selectorCollector.go`, followed by theorems about them.

Conventions of the embedding.

* A Go `[]byte` that is stored is a `List UInt8`; a returned `[]byte` is an
  `Option (List UInt8)`, `none` being the nil slice.
* The `sync.Map` mirror and the bolt bucket are association lists.  The order of
  the list is the order in which `Range` (resp. `ForEach`) visits the entries.
  The functions do not require the keys to be distinct; `NodupKeys` states it
  and separate lemmas show that the operations keep it.
* The `int32` counter is an `Int` kept in range by `wrapInt32`, the result of
  `atomic.AddInt32`.
* Whether a bolt transaction commits is decided by the environment: every
  mutating call takes the outcome `dbOk` of its `Db.Update`.  A transaction that
  fails is rolled back, so the bucket is left as it was.
* `json.Marshal` is a parameter `marshal : α → Option Bytes` (`none` is an
  encoding error); the `interface{}` argument of `AddOrUpdate` is an `Option α`,
  `none` being the nil interface.
-/

namespace Storage

/-- Contents of a stored Go byte slice. -/
abbrev Bytes := List UInt8

/-- Entries of a keyed container, in iteration order. -/
abbrev Entries := List (String × Bytes)

/-- Keys of the entries, in iteration order. -/
def keys (m : Entries) : List String := m.map Prod.fst

/-- No key occurs twice. -/
def NodupKeys (m : Entries) : Prop := (keys m).Nodup

instance (m : Entries) : Decidable (NodupKeys m) :=
  inferInstanceAs (Decidable (keys m).Nodup)

/-! ## `sync.Map` -/

/-- `m.Load(key)`: the value stored for `key`, if any. -/
def Load : Entries → String → Option Bytes
  | [], _ => none
  | (k, v) :: m, key => if k = key then some v else Load m key

/-- `m.Store(key, value)`: sets the value for `key`, replacing a present one. -/
def Store : Entries → String → Bytes → Entries
  | [], key, value => [(key, value)]
  | (k, v) :: m, key, value =>
    if k = key then (k, value) :: m else (k, v) :: Store m key value

/-- `m.LoadOrStore(key, value)`: returns the existing value for `key` if present
(the map is then left alone), otherwise stores `value`.  The flag is `loaded`. -/
def LoadOrStore (m : Entries) (key : String) (value : Bytes) : Entries × Bytes × Bool :=
  match Load m key with
  | some actual => (m, actual, true)
  | none => (Store m key value, value, false)

/-- `m.Delete(key)`: removes the entry of `key`. -/
def Delete : Entries → String → Entries
  | [], _ => []
  | (k, v) :: m, key => if k = key then Delete m key else (k, v) :: Delete m key

/-! ## The counter -/

/-- Two's-complement wrap of an integer into the `int32` range. -/
def wrapInt32 (x : Int) : Int := (x + 2147483648) % 4294967296 - 2147483648

/-- `atomic.AddInt32(&count, delta)`. -/
def AddInt32 (count delta : Int) : Int := wrapInt32 (count + delta)

/-! ## The engine -/

/-- The receiver of the storage methods: `Db` holds the entries persisted in the
bucket `bucketName`, `contents` is the in-memory mirror, `count` the counter. -/
structure BoltDbStorage where
  Db : Entries
  bucketName : String
  contents : Entries
  count : Int
  deriving DecidableEq

/-- Errors returned by `AddOrUpdate`. -/
inductive StorageError where
  | valueIsNull
  | marshalFailed
  | dbFailed
  deriving DecidableEq, Repr

/-- Body of the `ForEach` callback of `sync`: copy the entry into the mirror and
add one to the counter. -/
def syncEntry (s : BoltDbStorage) (e : String × Bytes) : BoltDbStorage :=
  { s with contents := Store s.contents e.1 e.2, count := AddInt32 s.count 1 }

/-- `s.sync()`: one pass over the bucket. -/
def sync (s : BoltDbStorage) : BoltDbStorage :=
  s.Db.foldl syncEntry s

/-- `NewBoltDbStorage(fileName, bucketName)`.  `opened` is the outcome of
`bolt.Open` followed by `CreateBucketIfNotExists`: an error, or the entries the
bucket holds on disk. -/
def NewBoltDbStorage (fileName bucketName : String) (opened : Except String Entries) :
    Except String BoltDbStorage :=
  if fileName = "" then
    .error "open boltdb whose fileName is empty"
  else if bucketName = "" then
    .error "create a bucket whose name is empty"
  else
    match opened with
    | .error err => .error err
    | .ok bucket =>
      .ok (sync { Db := bucket, bucketName := bucketName, contents := [], count := 0 })

/-- `s.Get(key)`: `append(nil, content...)`, which is still nil when `content`
has no bytes. -/
def Get (s : BoltDbStorage) (key : String) : Option Bytes :=
  match Load s.contents key with
  | some content => if content = [] then none else some content
  | none => none

/-- `s.Exist(key)`: `s.Get(key) != nil`. -/
def Exist (s : BoltDbStorage) (key : String) : Bool :=
  (Get s key).isSome

/-- `s.Delete(key)` with the outcome `dbOk` of the durable delete. -/
def BoltDbStorage.Delete (s : BoltDbStorage) (key : String) (dbOk : Bool) :
    Bool × BoltDbStorage :=
  if dbOk then
    let s1 := { s with Db := Storage.Delete s.Db key }
    match Load s1.contents key with
    | some _ =>
      (true, { s1 with contents := Storage.Delete s1.contents key,
                       count := AddInt32 s1.count (-1) })
    | none => (true, s1)
  else
    (false, s)

/-- `s.AddOrUpdate(key, value)` with the outcome `dbOk` of the durable put.  The
returned `none` is the nil error. -/
def AddOrUpdate {α : Type} (marshal : α → Option Bytes) (s : BoltDbStorage)
    (key : String) (value : Option α) (dbOk : Bool) :
    Option StorageError × BoltDbStorage :=
  match value with
  | none => (some .valueIsNull, s)
  | some v =>
    match marshal v with
    | none => (some .marshalFailed, s)
    | some content =>
      if dbOk then
        let s1 := { s with Db := Store s.Db key content }
        match LoadOrStore s1.contents key content with
        | (m, _, false) => (none, { s1 with contents := m, count := AddInt32 s1.count 1 })
        | (_, _, true) => (none, s1)
      else
        (some .dbFailed, s)

/-- `s.GetAll()`: a fresh map filled by one `Range` over the mirror. -/
def GetAll (s : BoltDbStorage) : Entries :=
  s.contents.foldl (fun result e => Store result e.1 e.2) []

/-- Local variables of `GetRandomOne` that its `Range` callback updates. -/
structure Pick where
  randomKey : String
  defaultKey : String
  index : Int
  deriving DecidableEq

/-- The `Range` of `GetRandomOne`: the callback runs on each entry in turn until
it returns false. -/
def pickRange : Entries → Pick → Pick
  | [], p => p
  | (key, _) :: m, p =>
    let p1 := if p.defaultKey = "" then { p with defaultKey := key } else p
    if p1.index = 0 then { p1 with randomKey := key }
    else pickRange m { p1 with index := p1.index - 1 }

/-- `s.GetRandomOne()`, `index` being the number drawn by
`rand.Intn(int(s.count))`. -/
def GetRandomOne (s : BoltDbStorage) (index : Int) : Option Bytes :=
  if s.count = 0 then none
  else
    let p := pickRange s.contents { randomKey := "", defaultKey := "", index := index }
    let randomKey := if p.randomKey = "" then p.defaultKey else p.randomKey
    Get s randomKey

end Storage

namespace Collector

/-- The cursor fields of `SelectorCollector`; `configuration` and `selectorMap`
play no part in `Next`.  `currentIndex` is a Go `int` that starts at 0 and is
only incremented while below `len(urls)`, hence a natural number. -/
structure SelectorCollector where
  currentUrl : String
  currentIndex : Nat
  urls : List String
  deriving DecidableEq

/-- `c.Next()`: the returned flag and the collector afterwards. -/
def Next (c : SelectorCollector) : Bool × SelectorCollector :=
  if h : c.currentIndex < c.urls.length then
    (true, { c with currentUrl := c.urls.get ⟨c.currentIndex, h⟩,
                    currentIndex := c.currentIndex + 1 })
  else
    (false, c)

/-- The cursor of the collector that `NewSelectorCollector` returns for the
expanded list `urls`: the struct literal sets `urls` and leaves `currentUrl` and
`currentIndex` at their zero values. -/
def fresh (urls : List String) : SelectorCollector :=
  { currentUrl := "", currentIndex := 0, urls := urls }

/-- The collector after `n` calls of `Next()`. -/
def calls : Nat → SelectorCollector → SelectorCollector
  | 0, c => c
  | n + 1, c => (Next (calls n c)).2

/-! ## Go maps with string keys -/

/-- `m[key]` with its `ok` flag: the value stored for `key`, if any. -/
def mapGet {β : Type} : List (String × β) → String → Option β
  | [], _ => none
  | (k, v) :: m, key => if k = key then some v else mapGet m key

/-- `m[key] = value`. -/
def mapSet {β : Type} : List (String × β) → String → β → List (String × β)
  | [], key, value => [(key, value)]
  | (k, v) :: m, key, value =>
    if k = key then (k, value) :: m else (k, v) :: mapSet m key value

/-! ## Source specification and construction

`Config`, its method `Verify` and the constant `COLLECTBYSELECTOR` are declared
outside the two source files, and so is `util.MakeUrls`.  The structure below
has the fields the collector reads; the other three are arguments of
`NewSelectorCollector`. -/

/-- One element of `config.ValueRuleMap.Items`. -/
structure ValueRule where
  Name : String
  Rule : String
  Attr : String
  deriving DecidableEq

/-- The fields of `Config` read by the collector.  `CollectType` is the field
`Type`, `Items` is `ValueRuleMap.Items`. -/
structure Config where
  Name : String
  UrlFormat : String
  UrlParameters : String
  CollectType : Nat
  Charset : String
  Items : List ValueRule
  deriving DecidableEq

/-- A `SelectorCollector` with all its fields: `configuration`, `selectorMap`,
and the cursor fields (`currentUrl`, `currentIndex`, `urls`). -/
structure FullCollector where
  configuration : Config
  selectorMap : List (String × List String)
  cursor : SelectorCollector
  deriving DecidableEq

/-- Body of the loop of `NewSelectorCollector` over the items: an item with an
empty name or rule is ignored, the others are stored under their name. -/
def addRule (selectorMap : List (String × List String)) (value : ValueRule) :
    List (String × List String) :=
  if value.Name = "" ∨ value.Rule = "" then selectorMap
  else if value.Name = "table" then mapSet selectorMap value.Name [value.Rule]
  else if value.Attr ≠ "" then mapSet selectorMap value.Name [value.Rule, value.Attr]
  else mapSet selectorMap value.Name [value.Rule]

/-- The `selectorMap` after the loop over the items. -/
def buildSelectorMap (items : List ValueRule) : List (String × List String) :=
  items.foldl addRule []

/-- Pieces of a text between commas; `cur` holds the characters of the piece
being read, last first. -/
def splitAux : List Char → List Char → List String
  | [], cur => [String.mk cur.reverse]
  | c :: cs, cur =>
    if c = ',' then String.mk cur.reverse :: splitAux cs [] else splitAux cs (c :: cur)

/-- `strings.Split(s, ",")`. -/
def Split (s : String) : List String := splitAux s.toList []

/-- `NewSelectorCollector(config)`; `none` is the nil collector.  The values of
`selectorMap` have one or two elements, so `v[0]` is always there. -/
def NewSelectorCollector (Verify : Config → Bool) (COLLECTBYSELECTOR : Nat)
    (MakeUrls : String → List String → List String) (config : Option Config) :
    Option FullCollector :=
  match config with
  | none => none
  | some config =>
    if !Verify config ∨ config.CollectType ≠ COLLECTBYSELECTOR ∨ config.Items.length < 3 then
      none
    else
      let selectorMap := buildSelectorMap config.Items
      match mapGet selectorMap "table" with
      | none => none
      | some v =>
        if v.head? = some "" then none
        else
          let parameters := Split config.UrlParameters
          let urls := MakeUrls config.UrlFormat parameters
          some { configuration := config, selectorMap := selectorMap, cursor := fresh urls }

/-! ## Numbers

`strconv.Atoi`, `regexp` and `strconv.ParseFloat` belong to the Go library.
They are modelled on its documented behaviour, on characters where the library
works on bytes: the texts concerned are made of ASCII digits, signs and points,
and any other character ends the number in both readings. -/

/-- An ASCII digit. -/
def isDigit (c : Char) : Bool := decide ('0' ≤ c ∧ c ≤ '9')

/-- An ASCII digit other than `0`. -/
def isNonzeroDigit (c : Char) : Bool := decide ('1' ≤ c ∧ c ≤ '9')

/-- Value of an ASCII digit. -/
def digitVal (c : Char) : Nat := c.toNat - 48

/-- The two errors of `strconv`: `invalid` is its syntax error, `outOfRange`
its range error. -/
inductive NumError where
  | invalid
  | outOfRange
  deriving DecidableEq

/-- The digit loop of `strconv.ParseUint(s, 10, 64)` from the value `n` read so
far: a character that is not a digit is a syntax error with value 0; a value
that leaves `uint64` is a range error with the largest `uint64`, returned at
once, whatever follows. -/
def parseUintLoop : List Char → Nat → Nat × Option NumError
  | [], n => (n, none)
  | c :: cs, n =>
    if !isDigit c then (0, some .invalid)
    else if n ≥ 1844674407370955162 then (18446744073709551615, some .outOfRange)
    else
      let n1 := (n * 10 + digitVal c) % 18446744073709551616
      if n1 < n * 10 then (18446744073709551615, some .outOfRange)
      else parseUintLoop cs n1

/-- `strconv.ParseUint(s, 10, 64)`. -/
def ParseUint (s : List Char) : Nat × Option NumError :=
  if s = [] then (0, some .invalid) else parseUintLoop s 0

/-- The end of `strconv.ParseInt(s, 10, 0)` on a 64-bit platform, once the sign
is taken off: a syntax error gives 0, a magnitude beyond `int64` gives the
nearest `int64` with a range error. -/
def signedOf (neg : Bool) (un : Nat × Option NumError) : Int × Option NumError :=
  if un.2 = some .invalid then (0, some .invalid)
  else if !neg ∧ un.1 ≥ 9223372036854775808 then (9223372036854775807, some .outOfRange)
  else if neg ∧ un.1 > 9223372036854775808 then (-9223372036854775808, some .outOfRange)
  else if neg then (-(un.1 : Int), none)
  else ((un.1 : Int), none)

/-- `strconv.ParseInt(s, 10, 0)` on a 64-bit platform. -/
def ParseInt : List Char → Int × Option NumError
  | [] => (0, some .invalid)
  | c :: cs =>
    if c = '+' then signedOf false (ParseUint cs)
    else if c = '-' then signedOf true (ParseUint cs)
    else signedOf false (ParseUint (c :: cs))

/-- `strconv.Atoi(s)` on a 64-bit platform: the value and the error.  Its fast
path for short texts returns what `ParseInt` returns on them. -/
def Atoi (s : String) : Int × Option NumError := ParseInt s.toList

/-- A `float64`: a finite value, an infinity, or NaN. -/
inductive Float64 where
  | finite (q : ℚ)
  | inf (negative : Bool)
  | nan
  deriving DecidableEq

/-- The comparison `x >= 0` on `float64`. -/
def Float64.geZero : Float64 → Bool
  | .finite q => decide (0 ≤ q)
  | .inf negative => !negative
  | .nan => false

/-- The comparison `x < 3` on `float64`. -/
def Float64.ltThree : Float64 → Bool
  | .finite q => decide (q < 3)
  | .inf negative => negative
  | .nan => false

/-- First alternative of the pattern, at the start of the text:
`^[1-9]\d*\.*\d*`, each repetition taking all it can. -/
def matchAnchored : List Char → Option (List Char)
  | [] => none
  | c :: cs =>
    if isNonzeroDigit c then
      some (c :: (cs.takeWhile isDigit ++
        ((cs.dropWhile isDigit).takeWhile (fun d => d = '.') ++
          ((cs.dropWhile isDigit).dropWhile (fun d => d = '.')).takeWhile isDigit)))
    else none

/-- Second alternative of the pattern, at the head of the text:
`0\.\d*[1-9]\d*`, which takes the whole run of digits after `0.` when one of
them is not `0`. -/
def matchZeroPoint : List Char → Option (List Char)
  | '0' :: '.' :: cs =>
    if (cs.takeWhile isDigit).any isNonzeroDigit then
      some ('0' :: '.' :: cs.takeWhile isDigit)
    else none
  | _ => none

/-- The leftmost place of the text where the second alternative matches. -/
def findZeroPoint : List Char → Option (List Char)
  | [] => none
  | c :: cs =>
    match matchZeroPoint (c :: cs) with
    | some m => some m
    | none => findZeroPoint cs

/-- `reg.FindString(s)` for the pattern `^[1-9]\d*\.*\d*|0\.\d*[1-9]\d*`:
the leftmost match, the first alternative being preferred where both start;
the empty text when there is none. -/
def FindString (s : String) : String :=
  match matchAnchored s.toList with
  | some m => String.mk m
  | none =>
    match findZeroPoint s.toList with
    | some m => String.mk m
    | none => ""

/-- The number written by decimal digits. -/
def digitsValue (ds : List Char) : Nat :=
  ds.foldl (fun n c => n * 10 + digitVal c) 0

/-- A text made of digits with at most one point and at least one digit, read
as its digits and the number of them after the point; `none` for any other
text made of digits and points. -/
def decimalParts (s : List Char) : Option (Nat × Nat) :=
  match s.dropWhile isDigit with
  | [] => if s = [] then none else some (digitsValue s, 0)
  | c :: fs =>
    if c = '.' ∧ fs.all isDigit ∧ (s.takeWhile isDigit ≠ [] ∨ fs ≠ []) then
      some (digitsValue (s.takeWhile isDigit ++ fs), fs.length)
    else none

/-- The exact value of a decimal number given by its digits and the number of
them after the point. -/
def decimalValue (parts : Nat × Nat) : ℚ := (parts.1 : ℚ) / (10 : ℚ) ^ parts.2

/-- `strconv.ParseFloat(s, 64)` with its error dropped, for the texts that
`FindString` returns (digits and points): a text that is not a decimal number
is a syntax error with value 0, and a decimal number gives the `float64`
nearest to its exact value (an infinity beyond the range), which is `round`. -/
def ParseFloat (round : ℚ → Float64) (s : String) : Float64 :=
  match decimalParts s.toList with
  | some parts => round (decimalValue parts)
  | none => .finite 0

/-- A specification in the shape of an entry of `collectorConfig.xml`, used in
the examples. -/
def sampleConfig (items : List ValueRule) : Config :=
  { Name := "sample", UrlFormat := "http://proxy.example/list/", UrlParameters := "1,2",
    CollectType := 0, Charset := "utf-8", Items := items }

/-- An expansion of a URL format over parameters, used in the examples in the
place of `util.MakeUrls`. -/
def sampleMakeUrls (urlFormat : String) (parameters : List String) : List String :=
  parameters.map (fun q => urlFormat ++ q)

/-- A decimal number in the two shapes the pattern reads: a digit other than 0
followed by digits, alone or with a point and digits after it; or `0.` followed
by digits of which one is not 0. -/
def PlainDecimal (d : List Char) : Prop :=
  (∃ c ds, d = c :: ds ∧ isNonzeroDigit c = true ∧ ds.all isDigit = true) ∨
  (∃ c ds fs, d = c :: (ds ++ '.' :: fs) ∧ isNonzeroDigit c = true ∧
    ds.all isDigit = true ∧ fs.all isDigit = true) ∨
  (∃ fs, d = '0' :: '.' :: fs ∧ fs.all isDigit = true ∧ fs.any isNonzeroDigit = true)

/-- The text that follows a number does not go on with a digit or a point. -/
def EndsNumber (rest : List Char) : Prop :=
  ∀ r tl, rest = r :: tl → isDigit r = false ∧ r ≠ '.'

/-! ## Rows

`goquery`, `mahonia`, `gorequest` and `util.IsIp` are outside the two source
files.  A row element is given by what `Find(path).Text()` and
`Find(path).Attr(name)` return on it, a decoder by its `ConvertString`, and the
address check is the argument `IsIp`. -/

/-- A row element selected by the `"table"` rule: `text path` is
`sel.Find(path).Text()`, and `attr path name` is the value of
`sel.Find(path).Attr(name)`, empty when the attribute is not there. -/
structure Selection where
  text : String → String
  attr : String → String → String

/-- The text found for a rule of one or two parts. -/
def fieldText (sel : Selection) (value : List String) : String :=
  match value with
  | [path] => sel.text path
  | [path, name] => sel.attr path name
  | _ => ""

/-- Body of the loop of `Collect` over `selectorMap`: for a rule other than
`"table"`, a non-empty text found is decoded, if there is a decoder, and stored
under the name of the rule. -/
def addValue (decoder : Option (String → String)) (sel : Selection)
    (nameValue : List (String × String)) (rule : String × List String) :
    List (String × String) :=
  if rule.1 ≠ "table" then
    if fieldText sel rule.2 ≠ "" then
      match decoder with
      | some convert => mapSet nameValue rule.1 (convert (fieldText sel rule.2))
      | none => mapSet nameValue rule.1 (fieldText sel rule.2)
    else nameValue
  else nameValue

/-- The map `nameValue` of a row. -/
def rowValues (decoder : Option (String → String)) (sel : Selection)
    (selectorMap : List (String × List String)) : List (String × String) :=
  selectorMap.foldl (addValue decoder sel) []

/-- A text after the decoding step: converted when there is a decoder. -/
def decoded (decoder : Option (String → String)) (t : String) : String :=
  match decoder with
  | some convert => convert t
  | none => t

/-- The text of the field `name` of a row, in the words of the description of
the extraction: for a field rule other than `"table"`, the element text
(one-part rule) or the attribute value (two-part rule), decoded when there is a
decoder; absent when the table has no such rule or nothing is found. -/
def fieldValue (decoder : Option (String → String)) (sel : Selection)
    (selectorMap : List (String × List String)) (name : String) : Option String :=
  if name = "table" then none
  else
    match mapGet selectorMap name with
    | some rule =>
      if fieldText sel rule = "" then none else some (decoded decoder (fieldText sel rule))
    | none => none

/-- A `result.Result`. -/
structure Result where
  Ip : String
  Port : Int
  Location : String
  Speed : Float64
  Source : String
  deriving DecidableEq

/-- The variable `ip` of a row after its `if`. -/
def rowIp (IsIp : String → Bool) (nameValue : List (String × String)) : String :=
  match mapGet nameValue "ip" with
  | some tempIp => if IsIp tempIp then tempIp else ""
  | none => ""

/-- The variable `port` of a row after its `if`: the value of `Atoi`, whose
error is dropped. -/
def rowPort (nameValue : List (String × String)) : Int :=
  match mapGet nameValue "port" with
  | some tempPort => (Atoi tempPort).1
  | none => 0

/-- The variable `speed` of a row after its `if`. -/
def rowSpeed (round : ℚ → Float64) (nameValue : List (String × String)) : Float64 :=
  match mapGet nameValue "speed" with
  | some tempSpeed =>
    if '秒' ∈ tempSpeed.toList then ParseFloat round (FindString tempSpeed)
    else .finite 0
  | none => .finite 0

/-- The variable `location` of a row after its `if`. -/
def rowLocation (nameValue : List (String × String)) : String :=
  match mapGet nameValue "location" with
  | some tempLocation => tempLocation
  | none => ""

/-- The record sent for a row, if one is sent. -/
def rowResult (IsIp : String → Bool) (round : ℚ → Float64) (currentUrl : String)
    (nameValue : List (String × String)) : Option Result :=
  if rowIp IsIp nameValue ≠ "" ∧ rowPort nameValue > 0 ∧
      (rowSpeed round nameValue).geZero = true ∧
      (rowSpeed round nameValue).ltThree = true then
    some { Ip := rowIp IsIp nameValue, Port := rowPort nameValue,
           Location := rowLocation nameValue, Speed := rowSpeed round nameValue,
           Source := currentUrl }
  else none

/-! ## Collect -/

/-- A non-nil `gorequest.Response` as far as `Collect` reads it: the status
code, and what `goquery.NewDocumentFromReader(response.Body)` makes of the body,
an error or a document given by the elements that `doc.Find(path)` selects. -/
structure Response where
  StatusCode : Int
  document : Except String (String → List Selection)

/-- What happens on the channel `ch`. -/
inductive ChanEvent where
  | send (r : Result)
  | close
  deriving DecidableEq

/-- How a call of `Collect` ends: the events on `ch` in order, and the errors
returned, `none` when the call ends in a panic and returns nothing. -/
structure Outcome where
  events : List ChanEvent
  returned : Option (List String)
  deriving DecidableEq

/-- The library functions that `Collect` calls: `util.IsIp`, the rounding of
`strconv.ParseFloat`, `mahonia.NewDecoder` (nil for an unknown charset) and
`http.StatusText`. -/
structure Env where
  IsIp : String → Bool
  round : ℚ → Float64
  NewDecoder : String → Option (String → String)
  StatusText : Int → String

/-- The decoder of `Collect`: none for `utf-8`. -/
def decoderOf (env : Env) (charset : String) : Option (String → String) :=
  if charset ≠ "utf-8" then env.NewDecoder charset else none

/-- The records sent for the rows, in order. -/
def sentRecords (env : Env) (c : FullCollector) (rows : List Selection) : List Result :=
  rows.filterMap (fun sel =>
    rowResult env.IsIp env.round c.cursor.currentUrl
      (rowValues (decoderOf env c.configuration.Charset) sel c.selectorMap))

/-- `c.Collect(ch)`, given what `gorequest` returned for the current URL: the
response, a pointer that may be nil, and the errors.  The deferred `close(ch)`
runs when the function returns and when it panics; `response.Body` on a nil
response and `c.selectorMap["table"][0]` without a `"table"` rule panic. -/
def Collect (env : Env) (c : FullCollector) (response : Option Response)
    (errs : List String) : Outcome :=
  match response with
  | none => { events := [.close], returned := none }
  | some response =>
    if errs.length > 0 then { events := [.close], returned := some errs }
    else if response.StatusCode ≠ 200 then
      { events := [.close],
        returned := some ["GET " ++ c.cursor.currentUrl ++ " failed, status code:" ++
          env.StatusText response.StatusCode] }
    else
      match response.document with
      | .error err =>
        { events := [.close],
          returned := some ["parse " ++ c.cursor.currentUrl ++ " error:" ++ err] }
      | .ok doc =>
        match mapGet c.selectorMap "table" with
        | some (path :: _) =>
          { events := (sentRecords env c (doc path)).map ChanEvent.send ++ [.close],
            returned := some [] }
        | _ => { events := [.close], returned := none }

/-- A row of a page given by the texts of its cells, used in the examples:
`Find(path).Text()` is the text listed for `path`, and there are no attributes. -/
def sampleRow (cells : List (String × String)) : Selection :=
  { text := fun path => (mapGet cells path).getD "", attr := fun _ _ => "" }

/-- Modelled from the spec: `util.IsIp`, which is outside the two source files;
the spec calls it IPv4 dotted-quad validation.  Four parts between points, each
of one to three digits and at most 255. -/
def sampleIsIp (s : String) : Bool :=
  let parts := (s.toList.splitOn '.')
  decide (parts.length = 4) &&
    parts.all (fun part => decide (0 < part.length) && decide (part.length ≤ 3) &&
      part.all isDigit && decide (digitsValue part ≤ 255))

/-- The library functions used in the examples: rounding keeps the exact value,
which is right for the values 0, 1/2 and 5 met there, no charset has a decoder. -/
def sampleEnv : Env :=
  { IsIp := sampleIsIp, round := Float64.finite, NewDecoder := fun _ => none,
    StatusText := fun _ => "" }

/-- A collector with the rules `table`, `ip`, `port`, `speed` and `location`,
whose current URL is the first of its list. -/
def sampleCollector : FullCollector :=
  { configuration :=
      sampleConfig [⟨"table", "table tr", ""⟩, ⟨"ip", "td.ip", ""⟩, ⟨"port", "td.port", ""⟩,
        ⟨"speed", "td.speed", ""⟩, ⟨"location", "td.location", ""⟩],
    selectorMap := [("table", ["table tr"]), ("ip", ["td.ip"]), ("port", ["td.port"]),
      ("speed", ["td.speed"]), ("location", ["td.location"])],
    cursor := { currentUrl := "http://proxy.example/list/1", currentIndex := 1,
                urls := ["http://proxy.example/list/1", "http://proxy.example/list/2"] } }

/-- Number of rules of the field-rule table other than `"table"`. -/
def additionalRules (selectorMap : List (String × List String)) : Nat :=
  (selectorMap.filter (fun e => decide (e.1 ≠ "table"))).length

end Collector

namespace Storage

/-! ## Callers used to state the properties -/

/-- One mutating call on the engine, with the outcome of its bolt transaction. -/
inductive Op (α : Type) where
  | addOrUpdate (key : String) (value : Option α) (dbOk : Bool)
  | delete (key : String) (dbOk : Bool)

/-- The engine after one call. -/
def Op.apply {α : Type} (marshal : α → Option Bytes) (s : BoltDbStorage) :
    Op α → BoltDbStorage
  | .addOrUpdate key value dbOk => (AddOrUpdate marshal s key value dbOk).2
  | .delete key dbOk => (s.Delete key dbOk).2

/-- The engine after a sequence of calls, made one after the other. -/
def run {α : Type} (marshal : α → Option Bytes) (s : BoltDbStorage)
    (ops : List (Op α)) : BoltDbStorage :=
  ops.foldl (Op.apply marshal) s

/-- Upserts the pairs in turn, each with a committing transaction, and collects
the errors the calls return. -/
def upsertAll {α : Type} (marshal : α → Option Bytes) :
    BoltDbStorage → List (String × Option α) → List (Option StorageError) × BoltDbStorage
  | s, [] => ([], s)
  | s, (key, value) :: rest =>
    let r := AddOrUpdate marshal s key value true
    let rs := upsertAll marshal r.2 rest
    (r.1 :: rs.1, rs.2)

/-- The value of an `int32` variable. -/
def IsInt32 (x : Int) : Prop := -2147483648 ≤ x ∧ x ≤ 2147483647

/-- A sample of Go values handed to `json.Marshal`: a `bool`, or a channel,
which has no JSON encoding. -/
inductive SampleValue where
  | bool (b : Bool)
  | chan
  deriving DecidableEq

/-- What `json.Marshal` returns on the sample values: the text `true` or
`false`, or an unsupported-type error. -/
def sampleMarshal : SampleValue → Option Bytes
  | .bool true => some [116, 114, 117, 101]
  | .bool false => some [102, 97, 108, 115, 101]
  | .chan => none

/-- The mirror has distinct keys and the counter is their number. -/
def CounterInv (s : BoltDbStorage) : Prop :=
  NodupKeys s.contents ∧ s.count = s.contents.length

/-- The mirror has distinct keys, no entry without bytes, and the counter is the
number of entries as an `int32`. -/
def MirrorInv (s : BoltDbStorage) : Prop :=
  NodupKeys s.contents ∧ (∀ e ∈ s.contents, e.2 ≠ []) ∧
    s.count = wrapInt32 s.contents.length

/-- The key whose value `GetRandomOne` hands to `Get` after its `Range`:
`randomKey`, or `defaultKey` when `randomKey` is still empty. -/
def pickedKey (m : Entries) (index : Int) : String :=
  if (pickRange m { randomKey := "", defaultKey := "", index := index }).randomKey = ""
  then (pickRange m { randomKey := "", defaultKey := "", index := index }).defaultKey
  else (pickRange m { randomKey := "", defaultKey := "", index := index }).randomKey

/-- The value of an entry as a returned slice, `append(nil, content...)`: nil
when the entry has no bytes. -/
def valueOf (e : String × Bytes) : Option Bytes :=
  if e.2 = [] then none else some e.2

/-- Reference definition of random sampling, in the words of its description:
over the iteration order `e_0, ..., e_{m-1}` of the mirror and the drawn index
`i`, the value of `e_i` when `i < m`, and the value of the first-visited entry
`e_0` when the pass ends before reaching the index. -/
def GetRandomOneRef (m : Entries) (i : Nat) : Option Bytes :=
  match m[i]? with
  | some e => valueOf e
  | none =>
    match m.head? with
    | some e0 => valueOf e0
    | none => none

/-- The mirror has no entry without bytes, and it holds a key exactly when the
bucket holds it. -/
def KeysInv (s : BoltDbStorage) : Prop :=
  (∀ e ∈ s.contents, e.2 ≠ []) ∧
    ∀ k, Load s.contents k = none ↔ Load s.Db k = none

/-! ## Lemmas on the association lists -/

theorem Load_eq_none_iff (m : Entries) (key : String) :
    Load m key = none ↔ key ∉ keys m := by
  induction m with
  | nil => simp [Load, keys]
  | cons e m ih =>
    obtain ⟨k, v⟩ := e
    by_cases h : k = key
    · simp [Load, keys, h]
    · have h2 : ¬ key = k := fun h3 => h h3.symm
      simp only [keys] at ih
      simp [Load, keys, h, h2, ih]

theorem Load_mem (m : Entries) (key : String) (v : Bytes) (h : Load m key = some v) :
    (key, v) ∈ m := by
  induction m with
  | nil => simp [Load] at h
  | cons e m ih =>
    obtain ⟨k, w⟩ := e
    by_cases hk : k = key
    · simp [Load, hk] at h
      simp [hk, h]
    · simp [Load, hk] at h
      exact List.mem_cons_of_mem _ (ih h)

theorem Load_Store_self (m : Entries) (key : String) (v : Bytes) :
    Load (Store m key v) key = some v := by
  induction m with
  | nil => simp [Store, Load]
  | cons e m ih =>
    obtain ⟨k, w⟩ := e
    by_cases hk : k = key
    · simp [Store, Load, hk]
    · simp [Store, Load, hk, ih]

theorem Load_Store_ne (m : Entries) (key key2 : String) (v : Bytes) (h : key2 ≠ key) :
    Load (Store m key v) key2 = Load m key2 := by
  have h2 : ¬ key = key2 := fun h3 => h h3.symm
  induction m with
  | nil => simp [Store, Load, h2]
  | cons e m ih =>
    obtain ⟨k, w⟩ := e
    by_cases hk : k = key
    · subst hk
      simp [Store, Load, h2]
    · by_cases hk2 : k = key2
      · subst hk2
        simp [Store, Load, hk]
      · simp [Store, Load, hk, hk2, ih]

theorem Store_absent (m : Entries) (key : String) (v : Bytes) (h : Load m key = none) :
    Store m key v = m ++ [(key, v)] := by
  induction m with
  | nil => simp [Store]
  | cons e m ih =>
    obtain ⟨k, w⟩ := e
    by_cases hk : k = key
    · simp [Load, hk] at h
    · simp [Load, hk] at h
      simp [Store, hk, ih h]

theorem keys_Store_present (m : Entries) (key : String) (v : Bytes)
    (h : Load m key ≠ none) : keys (Store m key v) = keys m := by
  induction m with
  | nil => simp [Load] at h
  | cons e m ih =>
    obtain ⟨k, w⟩ := e
    by_cases hk : k = key
    · simp [Store, keys, hk]
    · simp [Load, hk] at h
      have := ih h
      simp only [keys] at this
      simp [Store, keys, hk, this]

theorem NodupKeys_Store (m : Entries) (key : String) (v : Bytes) (h : NodupKeys m) :
    NodupKeys (Store m key v) := by
  cases hl : Load m key with
  | none =>
    have hk := (Load_eq_none_iff m key).1 hl
    rw [Store_absent m key v hl]
    unfold NodupKeys keys at *
    rw [List.map_append, List.nodup_append]
    refine ⟨h, by simp, ?_⟩
    intro a ha hb
    simp at hb
    subst hb
    exact hk ha
  | some w =>
    unfold NodupKeys
    rw [keys_Store_present m key v (by simp [hl])]
    exact h

theorem keys_Delete_subset (m : Entries) (key k : String) (h : k ∈ keys (Delete m key)) :
    k ∈ keys m ∧ k ≠ key := by
  induction m with
  | nil => simp [Delete, keys] at h
  | cons e m ih =>
    obtain ⟨k1, w⟩ := e
    by_cases hk : k1 = key
    · simp only [Delete, hk, if_true] at h
      exact ⟨List.mem_cons_of_mem _ (ih h).1, (ih h).2⟩
    · simp only [Delete, hk, if_false, keys, List.map_cons, List.mem_cons] at h
      rcases h with h | h
      · subst h
        exact ⟨by simp [keys], hk⟩
      · exact ⟨List.mem_cons_of_mem _ (ih h).1, (ih h).2⟩

theorem NodupKeys_Delete (m : Entries) (key : String) (h : NodupKeys m) :
    NodupKeys (Delete m key) := by
  induction m with
  | nil => simpa [Delete] using h
  | cons e m ih =>
    obtain ⟨k, w⟩ := e
    have hn : k ∉ keys m ∧ NodupKeys m := by
      simpa [NodupKeys, keys] using h
    by_cases hk : k = key
    · simp only [Delete, hk, if_true]
      exact ih hn.2
    · simp only [Delete, hk, if_false]
      have h1 : k ∉ keys (Delete m key) := fun h2 => hn.1 (keys_Delete_subset m key k h2).1
      have h2 := ih hn.2
      unfold NodupKeys keys at *
      rw [List.map_cons, List.nodup_cons]
      exact ⟨h1, h2⟩

theorem Load_Delete_self (m : Entries) (key : String) : Load (Delete m key) key = none := by
  rw [Load_eq_none_iff]
  intro h
  exact (keys_Delete_subset m key key h).2 rfl

theorem Load_Delete_ne (m : Entries) (key key2 : String) (h : key2 ≠ key) :
    Load (Delete m key) key2 = Load m key2 := by
  have h2 : ¬ key = key2 := fun h3 => h h3.symm
  induction m with
  | nil => simp [Delete, Load]
  | cons e m ih =>
    obtain ⟨k, w⟩ := e
    by_cases hk : k = key
    · subst hk
      simp [Delete, Load, h2, ih]
    · by_cases hk2 : k = key2
      · subst hk2
        simp [Delete, Load, hk]
      · simp [Delete, Load, hk, hk2, ih]

theorem Delete_absent (m : Entries) (key : String) (hl : Load m key = none) :
    Delete m key = m := by
  induction m with
  | nil => simp [Delete]
  | cons e m ih =>
    obtain ⟨k, w⟩ := e
    by_cases hk : k = key
    · simp [Load, hk] at hl
    · simp [Load, hk] at hl
      simp [Delete, hk, ih hl]

theorem length_Delete_present (m : Entries) (key : String) (h : NodupKeys m)
    (hl : Load m key ≠ none) : (Delete m key).length + 1 = m.length := by
  induction m with
  | nil => simp [Load] at hl
  | cons e m ih =>
    obtain ⟨k, w⟩ := e
    have hn : k ∉ keys m ∧ NodupKeys m := by
      simpa [NodupKeys, keys] using h
    by_cases hk : k = key
    · subst hk
      have hd : Delete m k = m := Delete_absent m k ((Load_eq_none_iff m k).2 hn.1)
      simp [Delete, hd]
    · simp [Load, hk] at hl
      have := ih hn.2 hl
      simp [Delete, hk]
      omega

/-! ## Lemmas on the counter -/

theorem wrapInt32_of_IsInt32 (x : Int) (h : IsInt32 x) : wrapInt32 x = x := by
  unfold IsInt32 at h
  unfold wrapInt32
  omega

theorem wrapInt32_add (a b : Int) : wrapInt32 (wrapInt32 a + b) = wrapInt32 (a + b) := by
  unfold wrapInt32
  omega

theorem wrapInt32_le (n : Nat) : wrapInt32 n ≤ n := by
  unfold wrapInt32
  omega

/-! ## Lemmas on the synchronization pass and on `GetAll` -/

theorem foldl_Store_append (l acc : Entries) (hl : NodupKeys l)
    (hd : ∀ k ∈ keys l, k ∉ keys acc) :
    l.foldl (fun result e => Store result e.1 e.2) acc = acc ++ l := by
  induction l generalizing acc with
  | nil => simp
  | cons e l ih =>
    obtain ⟨k, v⟩ := e
    have hn : k ∉ keys l ∧ NodupKeys l := by
      simpa [NodupKeys, keys] using hl
    have hk : Load acc k = none :=
      (Load_eq_none_iff acc k).2 (hd k (by simp [keys]))
    rw [List.foldl_cons]
    show List.foldl _ (Store acc k v) l = _
    rw [Store_absent acc k v hk, ih (acc ++ [(k, v)]) hn.2]
    · simp
    · intro k2 hk2 hmem
      simp only [keys, List.map_append, List.mem_append, List.map_cons, List.map_nil,
        List.mem_singleton] at hmem
      rcases hmem with hmem | hmem
      · exact hd k2 (by simp only [keys, List.map_cons, List.mem_cons]; exact Or.inr hk2) hmem
      · exact hn.1 (hmem ▸ hk2)

theorem Load_foldl_Store_none (l acc : Entries) (key : String)
    (ha : Load acc key = none) (hl : Load l key = none) :
    Load (l.foldl (fun result e => Store result e.1 e.2) acc) key = none := by
  induction l generalizing acc with
  | nil => simpa using ha
  | cons e l ih =>
    obtain ⟨k, v⟩ := e
    by_cases hk : k = key
    · simp [Load, hk] at hl
    · simp only [Load, hk, if_false] at hl
      rw [List.foldl_cons]
      apply ih _ _ hl
      rw [Load_Store_ne acc k key v (fun h => hk h.symm)]
      exact ha

theorem GetAll_eq_contents (s : BoltDbStorage) (h : NodupKeys s.contents) :
    GetAll s = s.contents := by
  unfold GetAll
  rw [foldl_Store_append s.contents [] h (by simp [keys])]
  simp

theorem foldl_syncEntry_Db (l : Entries) (s : BoltDbStorage) :
    (l.foldl syncEntry s).Db = s.Db ∧ (l.foldl syncEntry s).bucketName = s.bucketName := by
  induction l generalizing s with
  | nil => simp
  | cons e l ih =>
    rw [List.foldl_cons]
    exact ih (syncEntry s e)

theorem foldl_syncEntry_contents (l : Entries) (s : BoltDbStorage) :
    (l.foldl syncEntry s).contents =
      l.foldl (fun result e => Store result e.1 e.2) s.contents := by
  induction l generalizing s with
  | nil => simp
  | cons e l ih =>
    rw [List.foldl_cons, List.foldl_cons, ih (syncEntry s e)]
    rfl

theorem foldl_syncEntry_count (l : Entries) (s : BoltDbStorage)
    (h0 : -2147483648 ≤ s.count) (h1 : s.count + l.length ≤ 2147483647) :
    (l.foldl syncEntry s).count = s.count + l.length := by
  induction l generalizing s with
  | nil => simp
  | cons e l ih =>
    have hc : (syncEntry s e).count = s.count + 1 := by
      show AddInt32 s.count 1 = _
      unfold AddInt32
      apply wrapInt32_of_IsInt32
      unfold IsInt32
      simp only [List.length_cons, Nat.cast_add, Nat.cast_one] at h1
      omega
    rw [List.foldl_cons, ih (syncEntry s e)]
    · rw [hc]
      simp only [List.length_cons, Nat.cast_add, Nat.cast_one]
      omega
    · omega
    · rw [hc]
      simp only [List.length_cons, Nat.cast_add, Nat.cast_one] at h1
      omega

/-- The engine that `NewBoltDbStorage` returns over a bucket: its mirror holds
the bucket's entries and its counter is their number. -/
theorem NewBoltDbStorage_ok (fileName bucketName : String) (bucket : Entries)
    (s : BoltDbStorage) (h : NewBoltDbStorage fileName bucketName (.ok bucket) = .ok s)
    (hk : NodupKeys bucket) (hsize : bucket.length < 2147483648) :
    s.Db = bucket ∧ s.contents = bucket ∧ s.count = bucket.length := by
  unfold NewBoltDbStorage at h
  split at h
  · cases h
  · split at h
    · cases h
    · simp only [Except.ok.injEq] at h
      subst h
      unfold sync
      refine ⟨(foldl_syncEntry_Db _ _).1, ?_, ?_⟩
      · rw [foldl_syncEntry_contents]
        simp only
        rw [foldl_Store_append bucket [] hk (by simp [keys])]
        simp
      · rw [foldl_syncEntry_count]
        · simp
        · simp
        · simp only [zero_add]
          omega

/-! ## The two mutating calls, case by case -/

theorem AddOrUpdate_absent {α : Type} (marshal : α → Option Bytes) (s : BoltDbStorage)
    (key : String) (v : α) (c : Bytes) (hm : marshal v = some c)
    (hl : Load s.contents key = none) :
    AddOrUpdate marshal s key (some v) true =
      (none, { s with Db := Store s.Db key c, contents := Store s.contents key c,
                      count := AddInt32 s.count 1 }) := by
  simp [AddOrUpdate, hm, LoadOrStore, hl]

theorem AddOrUpdate_present {α : Type} (marshal : α → Option Bytes) (s : BoltDbStorage)
    (key : String) (v : α) (c old : Bytes) (hm : marshal v = some c)
    (hl : Load s.contents key = some old) :
    AddOrUpdate marshal s key (some v) true = (none, { s with Db := Store s.Db key c }) := by
  simp [AddOrUpdate, hm, LoadOrStore, hl]

theorem AddOrUpdate_success_iff {α : Type} (marshal : α → Option Bytes) (s : BoltDbStorage)
    (key : String) (value : Option α) (dbOk : Bool) :
    (AddOrUpdate marshal s key value dbOk).1 = none ↔
      ∃ v c, value = some v ∧ marshal v = some c ∧ dbOk = true := by
  cases value with
  | none => simp [AddOrUpdate]
  | some v =>
    cases hm : marshal v with
    | none => simp [AddOrUpdate, hm]
    | some c =>
      cases dbOk with
      | false => simp [AddOrUpdate, hm]
      | true =>
        cases hl : Load s.contents key with
        | none => simp [AddOrUpdate_absent marshal s key v c hm hl, hm]
        | some old => simp [AddOrUpdate_present marshal s key v c old hm hl, hm]

theorem AddOrUpdate_failure {α : Type} (marshal : α → Option Bytes) (s : BoltDbStorage)
    (key : String) (value : Option α) (dbOk : Bool)
    (h : (AddOrUpdate marshal s key value dbOk).1 ≠ none) :
    (AddOrUpdate marshal s key value dbOk).2 = s := by
  cases value with
  | none => simp [AddOrUpdate]
  | some v =>
    cases hm : marshal v with
    | none => simp [AddOrUpdate, hm]
    | some c =>
      cases dbOk with
      | false => simp [AddOrUpdate, hm]
      | true =>
        exfalso
        apply h
        rw [AddOrUpdate_success_iff]
        exact ⟨v, c, rfl, hm, rfl⟩

theorem Delete_present (s : BoltDbStorage) (key : String) (old : Bytes)
    (hl : Load s.contents key = some old) :
    s.Delete key true =
      (true, { s with Db := Storage.Delete s.Db key,
                      contents := Storage.Delete s.contents key,
                      count := AddInt32 s.count (-1) }) := by
  simp [BoltDbStorage.Delete, hl]

theorem Delete_absent_key (s : BoltDbStorage) (key : String)
    (hl : Load s.contents key = none) :
    s.Delete key true = (true, { s with Db := Storage.Delete s.Db key }) := by
  simp [BoltDbStorage.Delete, hl]

theorem Delete_failure (s : BoltDbStorage) (key : String) :
    s.Delete key false = (false, s) := by
  simp [BoltDbStorage.Delete]

theorem Get_of_Load (s : BoltDbStorage) (key : String) (c : Bytes)
    (hl : Load s.contents key = some c) (hc : c ≠ []) : Get s key = some c := by
  simp [Get, hl, hc]

theorem Get_congr (s t : BoltDbStorage) (key : String)
    (h : Load t.contents key = Load s.contents key) : Get t key = Get s key := by
  simp [Get, h]

/-! ## The counter invariant -/

theorem AddOrUpdate_count {α : Type} (marshal : α → Option Bytes) (s : BoltDbStorage)
    (key : String) (value : Option α) (dbOk : Bool)
    (h0 : -2147483648 ≤ s.count) (h1 : s.count < 2147483647) :
    (AddOrUpdate marshal s key value dbOk).2.count =
      if (AddOrUpdate marshal s key value dbOk).1 = none ∧ Load s.contents key = none
      then s.count + 1 else s.count := by
  have hw : AddInt32 s.count 1 = s.count + 1 := by
    unfold AddInt32
    apply wrapInt32_of_IsInt32
    unfold IsInt32
    omega
  cases value with
  | none => simp [AddOrUpdate]
  | some v =>
    cases hm : marshal v with
    | none => simp [AddOrUpdate, hm]
    | some c =>
      cases dbOk with
      | false => simp [AddOrUpdate, hm]
      | true =>
        cases hl : Load s.contents key with
        | none => simp [AddOrUpdate_absent marshal s key v c hm hl, hw]
        | some old => simp [AddOrUpdate_present marshal s key v c old hm hl]

theorem Delete_count (s : BoltDbStorage) (key : String) (dbOk : Bool)
    (h0 : -2147483648 < s.count) (h1 : s.count ≤ 2147483647) :
    (s.Delete key dbOk).2.count =
      if dbOk = true ∧ Load s.contents key ≠ none then s.count - 1 else s.count := by
  have hw : AddInt32 s.count (-1) = s.count - 1 := by
    unfold AddInt32
    apply wrapInt32_of_IsInt32
    unfold IsInt32
    omega
  cases dbOk with
  | false => simp [Delete_failure]
  | true =>
    cases hl : Load s.contents key with
    | none => simp [Delete_absent_key s key hl]
    | some old => simp [Delete_present s key old hl, hw]

theorem AddOrUpdate_CounterInv {α : Type} (marshal : α → Option Bytes) (s : BoltDbStorage)
    (key : String) (value : Option α) (dbOk : Bool) (h : CounterInv s)
    (hsize : s.contents.length < 2147483647) :
    CounterInv (AddOrUpdate marshal s key value dbOk).2 ∧
      (AddOrUpdate marshal s key value dbOk).2.contents.length ≤ s.contents.length + 1 := by
  obtain ⟨hn, hc⟩ := h
  have hcount := AddOrUpdate_count marshal s key value dbOk (by omega) (by omega)
  by_cases hs : (AddOrUpdate marshal s key value dbOk).1 = none
  · obtain ⟨v, c, hv, hm, hd⟩ := (AddOrUpdate_success_iff marshal s key value dbOk).1 hs
    subst hv
    subst hd
    cases hl : Load s.contents key with
    | none =>
      rw [AddOrUpdate_absent marshal s key v c hm hl] at hcount ⊢
      simp only [hl, and_self, if_true] at hcount
      refine ⟨⟨NodupKeys_Store _ _ _ hn, ?_⟩, ?_⟩
      · simp only at hcount ⊢
        rw [hcount, Store_absent _ _ _ hl, hc]
        simp
      · simp only
        rw [Store_absent _ _ _ hl]
        simp
    | some old =>
      rw [AddOrUpdate_present marshal s key v c old hm hl]
      exact ⟨⟨hn, hc⟩, by simp⟩
  · rw [AddOrUpdate_failure marshal s key value dbOk hs]
    exact ⟨⟨hn, hc⟩, by omega⟩

theorem Delete_CounterInv (s : BoltDbStorage) (key : String) (dbOk : Bool)
    (h : CounterInv s) (hsize : s.contents.length < 2147483648) :
    CounterInv (s.Delete key dbOk).2 ∧
      (s.Delete key dbOk).2.contents.length ≤ s.contents.length := by
  obtain ⟨hn, hc⟩ := h
  cases dbOk with
  | false =>
    rw [Delete_failure]
    exact ⟨⟨hn, hc⟩, le_refl _⟩
  | true =>
    cases hl : Load s.contents key with
    | none =>
      rw [Delete_absent_key s key hl]
      exact ⟨⟨hn, hc⟩, le_refl _⟩
    | some old =>
      have hlen := length_Delete_present s.contents key hn (by simp [hl])
      have hcount := Delete_count s key true (by omega) (by omega)
      rw [Delete_present s key old hl] at hcount ⊢
      simp only [hl, ne_eq, reduceCtorEq, not_false_eq_true, and_self, if_true] at hcount
      refine ⟨⟨NodupKeys_Delete _ _ hn, ?_⟩, ?_⟩
      · simp only at hcount ⊢
        rw [hcount, hc]
        omega
      · simp only
        omega

theorem apply_CounterInv {α : Type} (marshal : α → Option Bytes) (s : BoltDbStorage)
    (op : Op α) (h : CounterInv s) (hsize : s.contents.length < 2147483647) :
    CounterInv (op.apply marshal s) ∧
      (op.apply marshal s).contents.length ≤ s.contents.length + 1 := by
  cases op with
  | addOrUpdate key value dbOk => exact AddOrUpdate_CounterInv marshal s key value dbOk h hsize
  | delete key dbOk =>
    have := Delete_CounterInv s key dbOk h (by omega)
    exact ⟨this.1, by have := this.2; simp only [Op.apply]; omega⟩

theorem run_take_CounterInv {α : Type} (marshal : α → Option Bytes) (ops : List (Op α))
    (s : BoltDbStorage) (h : CounterInv s)
    (hsize : s.contents.length + ops.length < 2147483647) (n : Nat) (hn : n ≤ ops.length) :
    CounterInv (run marshal s (ops.take n)) ∧
      (run marshal s (ops.take n)).contents.length ≤ s.contents.length + n := by
  induction ops generalizing s n with
  | nil => simpa [run] using h
  | cons op ops ih =>
    cases n with
    | zero => simpa [run] using h
    | succ n =>
      simp only [List.length_cons] at hsize hn
      have hstep := apply_CounterInv marshal s op h (by omega)
      have := ih (op.apply marshal s) hstep.1 (by omega) n (by omega)
      simp only [List.take_succ_cons, run, List.foldl_cons]
      simp only [run] at this
      exact ⟨this.1, by omega⟩

/-! ## Upsert of a key that is already mirrored -/

/-- C1, evaluated on the code: over an empty bucket, `AddOrUpdate("k1", true)`
followed by `AddOrUpdate("k1", false)` both succeed and the second leaves the
counter at 1, but `Get("k1")` still returns the encoding of `true`, the bytes
stored first, while the bucket holds the encoding of `false`. -/
theorem AddOrUpdate_existing_key_keeps_old_bytes :
    ∃ s0 : BoltDbStorage,
      NewBoltDbStorage "proxy.db" "IpList" (.ok []) = .ok s0 ∧
      (AddOrUpdate sampleMarshal s0 "k1" (some (.bool true)) true).1 = none ∧
      (AddOrUpdate sampleMarshal
        (AddOrUpdate sampleMarshal s0 "k1" (some (.bool true)) true).2
        "k1" (some (.bool false)) true).1 = none ∧
      (AddOrUpdate sampleMarshal
        (AddOrUpdate sampleMarshal s0 "k1" (some (.bool true)) true).2
        "k1" (some (.bool false)) true).2.count = 1 ∧
      Get (AddOrUpdate sampleMarshal
        (AddOrUpdate sampleMarshal s0 "k1" (some (.bool true)) true).2
        "k1" (some (.bool false)) true).2 "k1" = sampleMarshal (.bool true) ∧
      Get (AddOrUpdate sampleMarshal
        (AddOrUpdate sampleMarshal s0 "k1" (some (.bool true)) true).2
        "k1" (some (.bool false)) true).2 "k1" ≠ sampleMarshal (.bool false) ∧
      Load (AddOrUpdate sampleMarshal
        (AddOrUpdate sampleMarshal s0 "k1" (some (.bool true)) true).2
        "k1" (some (.bool false)) true).2.Db "k1" = sampleMarshal (.bool false) :=
  ⟨{ Db := [], bucketName := "IpList", contents := [], count := 0 }, by rfl, by decide⟩

/-- C2, evaluated on the code: over a bucket holding `k1` with the encoding of
`true`, a successful `AddOrUpdate("k1", false)` leaves the mirror with the old
bytes while the bucket has the new ones, and the engine built again over that
bucket has a mirror that differs from the one before. -/
theorem mirror_differs_from_bucket_after_update :
    ∃ s0 s1 : BoltDbStorage,
      NewBoltDbStorage "proxy.db" "IpList" (.ok [("k1", [116, 114, 117, 101])]) = .ok s0 ∧
      (AddOrUpdate sampleMarshal s0 "k1" (some (.bool false)) true).1 = none ∧
      Load (AddOrUpdate sampleMarshal s0 "k1" (some (.bool false)) true).2.contents "k1" ≠
        Load (AddOrUpdate sampleMarshal s0 "k1" (some (.bool false)) true).2.Db "k1" ∧
      NewBoltDbStorage "proxy.db" "IpList"
        (.ok (AddOrUpdate sampleMarshal s0 "k1" (some (.bool false)) true).2.Db) = .ok s1 ∧
      Load s1.contents "k1" ≠
        Load (AddOrUpdate sampleMarshal s0 "k1" (some (.bool false)) true).2.contents "k1" :=
  ⟨{ Db := [("k1", [116, 114, 117, 101])], bucketName := "IpList",
     contents := [("k1", [116, 114, 117, 101])], count := 1 },
   { Db := [("k1", [102, 97, 108, 115, 101])], bucketName := "IpList",
     contents := [("k1", [102, 97, 108, 115, 101])], count := 1 },
   by rfl, by decide, by decide, by rfl, by decide⟩

/-! ## The counter -/

/-- C3: the engine built over a bucket of distinct keys has a counter equal to
the number of entries read, and after any number of the calls `ops` (as long as
the `int32` counter cannot overflow) the mirror has distinct keys and the
counter is their number; from such a state `AddOrUpdate` adds one exactly when
it succeeds on a key absent from the mirror and `Delete` subtracts one exactly
when the durable delete succeeds on a key present in the mirror, and neither
changes the counter otherwise. -/
theorem counter_eq_number_of_keys {α : Type} (marshal : α → Option Bytes)
    (fileName bucketName : String) (bucket : Entries) (s0 : BoltDbStorage)
    (ops : List (Op α))
    (hnew : NewBoltDbStorage fileName bucketName (.ok bucket) = .ok s0)
    (hkeys : NodupKeys bucket) (hsize : bucket.length + ops.length < 2147483647) :
    s0.count = bucket.length ∧
    ∀ n, n ≤ ops.length →
      let s := run marshal s0 (ops.take n)
      NodupKeys s.contents ∧ s.count = s.contents.length ∧
      (∀ key value dbOk,
        (AddOrUpdate marshal s key value dbOk).2.count =
          if (AddOrUpdate marshal s key value dbOk).1 = none ∧ Load s.contents key = none
          then s.count + 1 else s.count) ∧
      (∀ key dbOk,
        (s.Delete key dbOk).2.count =
          if dbOk = true ∧ Load s.contents key ≠ none then s.count - 1 else s.count) := by
  obtain ⟨_, hc, hcount⟩ := NewBoltDbStorage_ok fileName bucketName bucket s0 hnew hkeys
    (by omega)
  refine ⟨hcount, ?_⟩
  intro n hn s
  have hinv : CounterInv s0 := ⟨by rw [hc]; exact hkeys, by rw [hcount, hc]⟩
  have h := run_take_CounterInv marshal ops s0 hinv (by rw [hc]; exact hsize) n hn
  have hlen : s.contents.length ≤ s0.contents.length + n := h.2
  rw [hc] at hlen
  have hcnt : s.count = s.contents.length := h.1.2
  refine ⟨h.1.1, hcnt, ?_, ?_⟩
  · intro key value dbOk
    exact AddOrUpdate_count marshal s key value dbOk (by omega) (by omega)
  · intro key dbOk
    by_cases hl : Load s.contents key = none
    · cases dbOk with
      | false => simp [Delete_failure]
      | true => simp [Delete_absent_key s key hl, hl]
    · have hpos : 0 < s.contents.length := by
        cases hs : s.contents with
        | nil => rw [hs] at hl; simp [Load] at hl
        | cons e m => simp
      exact Delete_count s key dbOk (by omega) (by omega)

/-- C3 on a bucket with two entries followed by an upsert of a new key, an
update and a delete. -/
theorem counter_eq_number_of_keys_witness :
    (run sampleMarshal
        { Db := [("a", [116, 114, 117, 101]), ("b", [102, 97, 108, 115, 101])],
          bucketName := "IpList",
          contents := [("a", [116, 114, 117, 101]), ("b", [102, 97, 108, 115, 101])],
          count := 2 }
        ([Op.addOrUpdate "c" (some (.bool true)) true,
          Op.addOrUpdate "a" (some (.bool false)) true,
          Op.delete "b" true].take 3)).count = 2 :=
  ((counter_eq_number_of_keys sampleMarshal "proxy.db" "IpList"
      [("a", [116, 114, 117, 101]), ("b", [102, 97, 108, 115, 101])]
      { Db := [("a", [116, 114, 117, 101]), ("b", [102, 97, 108, 115, 101])],
        bucketName := "IpList",
        contents := [("a", [116, 114, 117, 101]), ("b", [102, 97, 108, 115, 101])],
        count := 2 }
      [Op.addOrUpdate "c" (some (.bool true)) true,
       Op.addOrUpdate "a" (some (.bool false)) true,
       Op.delete "b" true]
      (by rfl) (by decide) (by decide)).2 3 (by decide)).2.1.trans (by decide)

/-! ## Insertion, deletion and failure -/

/-- C4: when `key` has no entry in the mirror and `AddOrUpdate(key, v)` returns
no error, then (the encoding of `v` being a JSON text, hence not empty, and the
`int32` counter being below its maximum) `Get(key)` is the encoding of `v`,
`Exist(key)` is true, the counter has grown by one and `Get` of every other key
is what it was. -/
theorem AddOrUpdate_new_key {α : Type} (marshal : α → Option Bytes) (s : BoltDbStorage)
    (key : String) (v : α) (dbOk : Bool)
    (habsent : Load s.contents key = none)
    (hsucc : (AddOrUpdate marshal s key (some v) dbOk).1 = none)
    (hjson : ∀ c, marshal v = some c → c ≠ [])
    (hmin : -2147483648 ≤ s.count) (hmax : s.count < 2147483647) :
    Get (AddOrUpdate marshal s key (some v) dbOk).2 key = marshal v ∧
    Exist (AddOrUpdate marshal s key (some v) dbOk).2 key = true ∧
    (AddOrUpdate marshal s key (some v) dbOk).2.count = s.count + 1 ∧
    ∀ key2, key2 ≠ key →
      Get (AddOrUpdate marshal s key (some v) dbOk).2 key2 = Get s key2 := by
  have hcount := AddOrUpdate_count marshal s key (some v) dbOk hmin hmax
  simp only [hsucc, habsent, and_self, if_true] at hcount
  obtain ⟨v1, c, hv, hm, hd⟩ := (AddOrUpdate_success_iff marshal s key (some v) dbOk).1 hsucc
  cases hv
  subst hd
  rw [AddOrUpdate_absent marshal s key v c hm habsent] at hcount ⊢
  have hget : Get { s with Db := Store s.Db key c, contents := Store s.contents key c,
                           count := AddInt32 s.count 1 } key = some c :=
    Get_of_Load _ key c (Load_Store_self _ _ _) (hjson c hm)
  refine ⟨by rw [hget, hm], by simp [Exist, hget], hcount, ?_⟩
  intro key2 hne
  exact Get_congr _ _ key2 (Load_Store_ne _ _ _ _ hne)

/-- C4 on the first upsert into an empty engine. -/
theorem AddOrUpdate_new_key_witness :
    Get (AddOrUpdate sampleMarshal
      { Db := [], bucketName := "IpList", contents := [], count := 0 }
      "k1" (some (.bool true)) true).2 "k1" = some [116, 114, 117, 101] :=
  (AddOrUpdate_new_key sampleMarshal
    { Db := [], bucketName := "IpList", contents := [], count := 0 }
    "k1" (.bool true) true (by decide) (by decide) (by decide) (by decide) (by decide)).1

/-- C5: when the durable delete succeeds, `Delete(key)` returns true, and
afterwards `Exist(key)` is false, `GetAll()` has no entry for `key`, every
other key keeps its bytes, and the counter (an `int32` above its minimum) is one
less if `key` was in the mirror and unchanged if it was not. -/
theorem Delete_success (s : BoltDbStorage) (key : String)
    (hmin : -2147483648 < s.count) (hmax : s.count ≤ 2147483647) :
    (s.Delete key true).1 = true ∧
    Exist (s.Delete key true).2 key = false ∧
    Load (GetAll (s.Delete key true).2) key = none ∧
    (∀ key2, key2 ≠ key →
      Load (s.Delete key true).2.contents key2 = Load s.contents key2 ∧
      Get (s.Delete key true).2 key2 = Get s key2) ∧
    (s.Delete key true).2.count =
      if Load s.contents key ≠ none then s.count - 1 else s.count := by
  have hcount := Delete_count s key true hmin hmax
  simp only [true_and] at hcount
  have hload : Load (s.Delete key true).2.contents key = none := by
    cases hl : Load s.contents key with
    | none => rw [Delete_absent_key s key hl]; exact hl
    | some old => rw [Delete_present s key old hl]; exact Load_Delete_self _ _
  have hother : ∀ key2, key2 ≠ key →
      Load (s.Delete key true).2.contents key2 = Load s.contents key2 := by
    intro key2 hne
    cases hl : Load s.contents key with
    | none => rw [Delete_absent_key s key hl]
    | some old => rw [Delete_present s key old hl]; exact Load_Delete_ne _ _ _ hne
  have hret : (s.Delete key true).1 = true := by
    cases hl : Load s.contents key with
    | none => rw [Delete_absent_key s key hl]
    | some old => rw [Delete_present s key old hl]
  refine ⟨hret, ?_, ?_, ?_, hcount⟩
  · simp [Exist, Get, hload]
  · exact Load_foldl_Store_none _ [] key rfl hload
  · intro key2 hne
    exact ⟨hother key2 hne, Get_congr _ _ key2 (hother key2 hne)⟩

/-- C5 on an engine holding two keys. -/
theorem Delete_success_witness :
    (BoltDbStorage.Delete
      { Db := [("a", [116, 114, 117, 101]), ("b", [102, 97, 108, 115, 101])],
        bucketName := "IpList",
        contents := [("a", [116, 114, 117, 101]), ("b", [102, 97, 108, 115, 101])],
        count := 2 } "a" true).2.count = 1 :=
  (Delete_success
    { Db := [("a", [116, 114, 117, 101]), ("b", [102, 97, 108, 115, 101])],
      bucketName := "IpList",
      contents := [("a", [116, 114, 117, 101]), ("b", [102, 97, 108, 115, 101])],
      count := 2 } "a" (by decide) (by decide)).2.2.2.2.trans (by decide)

/-- C6: `AddOrUpdate` returns an error exactly when the value is null, its
encoding fails or the durable write fails, and `Delete` returns false exactly
when the durable delete fails; in each of these cases the engine afterwards
(mirror, counter and bucket) is the engine before, and a null value is refused
whatever the durable store would have answered. -/
theorem failure_leaves_engine_unchanged {α : Type} (marshal : α → Option Bytes)
    (s : BoltDbStorage) (key : String) (value : Option α) (dbOk : Bool) :
    ((AddOrUpdate marshal s key value dbOk).1 ≠ none ↔
      (value = none ∨ (∃ v, value = some v ∧ marshal v = none) ∨ dbOk = false)) ∧
    ((AddOrUpdate marshal s key value dbOk).1 ≠ none →
      (AddOrUpdate marshal s key value dbOk).2 = s) ∧
    AddOrUpdate marshal s key none dbOk = (some .valueIsNull, s) ∧
    ((s.Delete key dbOk).1 = false ↔ dbOk = false) ∧
    ((s.Delete key dbOk).1 = false → (s.Delete key dbOk).2 = s) := by
  refine ⟨?_, AddOrUpdate_failure marshal s key value dbOk, rfl, ?_, ?_⟩
  · rw [Ne, AddOrUpdate_success_iff]
    cases value with
    | none => simp
    | some v =>
      cases hm : marshal v with
      | none => simp [hm]
      | some c => cases dbOk <;> simp [hm]
  · cases dbOk with
    | false => simp [Delete_failure]
    | true => cases hl : Load s.contents key <;> simp [BoltDbStorage.Delete, hl]
  · cases dbOk with
    | false => simp [Delete_failure]
    | true => cases hl : Load s.contents key <;> simp [BoltDbStorage.Delete, hl]

/-- C6 on a value without encoding and on a failing durable delete. -/
theorem failure_leaves_engine_unchanged_witness :
    (AddOrUpdate sampleMarshal
      { Db := [("a", [116, 114, 117, 101])], bucketName := "IpList",
        contents := [("a", [116, 114, 117, 101])], count := 1 }
      "b" (some .chan) true).2 =
      { Db := [("a", [116, 114, 117, 101])], bucketName := "IpList",
        contents := [("a", [116, 114, 117, 101])], count := 1 } ∧
    (BoltDbStorage.Delete
      { Db := [("a", [116, 114, 117, 101])], bucketName := "IpList",
        contents := [("a", [116, 114, 117, 101])], count := 1 } "a" false).2 =
      { Db := [("a", [116, 114, 117, 101])], bucketName := "IpList",
        contents := [("a", [116, 114, 117, 101])], count := 1 } :=
  ⟨(failure_leaves_engine_unchanged sampleMarshal
      { Db := [("a", [116, 114, 117, 101])], bucketName := "IpList",
        contents := [("a", [116, 114, 117, 101])], count := 1 }
      "b" (some .chan) true).2.1 (by decide),
   (failure_leaves_engine_unchanged sampleMarshal
      { Db := [("a", [116, 114, 117, 101])], bucketName := "IpList",
        contents := [("a", [116, 114, 117, 101])], count := 1 }
      "a" (some (.bool true)) false).2.2.2.2 (by decide)⟩

/-! ## Upserting distinct keys -/

theorem upsertAll_distinct {α : Type} (marshal : α → Option Bytes)
    (kvs : List (String × Option α)) (s : BoltDbStorage)
    (hn : NodupKeys s.contents) (hd : (kvs.map Prod.fst).Nodup)
    (hdisj : ∀ k ∈ kvs.map Prod.fst, Load s.contents k = none)
    (hok : ∀ e ∈ (upsertAll marshal s kvs).1, e = none)
    (hmin : -2147483648 ≤ s.count) (hmax : s.count + kvs.length ≤ 2147483647) :
    NodupKeys (upsertAll marshal s kvs).2.contents ∧
    (upsertAll marshal s kvs).2.count = s.count + kvs.length ∧
    (upsertAll marshal s kvs).2.contents.length = s.contents.length + kvs.length ∧
    (∀ k, k ∉ kvs.map Prod.fst →
      Load (upsertAll marshal s kvs).2.contents k = Load s.contents k) ∧
    (∀ p ∈ kvs, ∃ v c, p.2 = some v ∧ marshal v = some c ∧
      Load (upsertAll marshal s kvs).2.contents p.1 = some c) := by
  induction kvs generalizing s with
  | nil => simp [upsertAll, hn]
  | cons p rest ih =>
    obtain ⟨key, value⟩ := p
    simp only [List.map_cons, List.nodup_cons] at hd
    simp only [List.length_cons, Nat.cast_add, Nat.cast_one] at hmax
    have hhead : (AddOrUpdate marshal s key value true).1 = none :=
      hok _ (by simp [upsertAll])
    obtain ⟨v, c, hv, hm, _⟩ := (AddOrUpdate_success_iff marshal s key value true).1 hhead
    subst hv
    have habs : Load s.contents key = none := hdisj key (by simp)
    have hstep := AddOrUpdate_absent marshal s key v c hm habs
    have hw : AddInt32 s.count 1 = s.count + 1 := by
      unfold AddInt32
      apply wrapInt32_of_IsInt32
      unfold IsInt32
      omega
    have hrec : upsertAll marshal s ((key, some v) :: rest) =
        (none :: (upsertAll marshal (AddOrUpdate marshal s key (some v) true).2 rest).1,
          (upsertAll marshal (AddOrUpdate marshal s key (some v) true).2 rest).2) := by
      simp [upsertAll, hhead]
    rw [hrec] at hok ⊢
    rw [hstep] at hok ⊢
    simp only at hok ⊢
    have hne : ∀ k ∈ rest.map Prod.fst, k ≠ key := by
      intro k hk hkk
      exact hd.1 (hkk ▸ hk)
    have := ih { s with Db := Store s.Db key c, contents := Store s.contents key c,
                        count := AddInt32 s.count 1 }
      (NodupKeys_Store _ _ _ hn) hd.2
      (by
        intro k hk
        show Load (Store s.contents key c) k = none
        rw [Load_Store_ne _ _ _ _ (hne k hk)]
        exact hdisj k (by simp only [List.map_cons, List.mem_cons]; exact Or.inr hk))
      (by
        intro e he
        exact hok e (List.mem_cons_of_mem _ he))
      (by simp only; rw [hw]; omega)
      (by simp only; rw [hw]; omega)
    obtain ⟨h1, h2, h3, h4, h5⟩ := this
    simp only at h2 h3 h4
    refine ⟨h1, ?_, ?_, ?_, ?_⟩
    · rw [h2, hw]
      simp only [List.length_cons, Nat.cast_add, Nat.cast_one]
      omega
    · rw [h3, Store_absent _ _ _ habs]
      simp only [List.length_append, List.length_cons, List.length_nil]
      omega
    · intro k hk
      simp only [List.map_cons, List.mem_cons, not_or] at hk
      rw [h4 k hk.2]
      exact Load_Store_ne _ _ _ _ hk.1
    · intro p hp
      simp only [List.mem_cons] at hp
      rcases hp with hp | hp
      · subst hp
        refine ⟨v, c, rfl, hm, ?_⟩
        rw [h4 key hd.1]
        exact Load_Store_self _ _ _
      · exact h5 p hp

/-- C7: over an empty bucket, after `N` upserts of pairwise distinct keys that
all return no error (`N` within the `int32` range of the counter), the counter
is `N`, `GetAll()` has `N` entries, its keys are exactly the upserted keys, and
each holds the encoding of the value upserted under it. -/
theorem upsert_distinct_keys {α : Type} (marshal : α → Option Bytes)
    (fileName bucketName : String) (s0 : BoltDbStorage)
    (kvs : List (String × Option α))
    (hnew : NewBoltDbStorage fileName bucketName (.ok []) = .ok s0)
    (hdist : (kvs.map Prod.fst).Nodup)
    (hok : ∀ e ∈ (upsertAll marshal s0 kvs).1, e = none)
    (hN : kvs.length < 2147483648) :
    (upsertAll marshal s0 kvs).2.count = kvs.length ∧
    (GetAll (upsertAll marshal s0 kvs).2).length = kvs.length ∧
    (∀ k, Load (GetAll (upsertAll marshal s0 kvs).2) k ≠ none ↔ k ∈ kvs.map Prod.fst) ∧
    (∀ p ∈ kvs, ∃ v c, p.2 = some v ∧ marshal v = some c ∧
      Load (GetAll (upsertAll marshal s0 kvs).2) p.1 = some c) := by
  obtain ⟨_, hc, hcount⟩ := NewBoltDbStorage_ok fileName bucketName [] s0 hnew
    (by simp [NodupKeys, keys]) (by simp)
  simp only [List.length_nil, Nat.cast_zero] at hcount
  obtain ⟨h1, h2, h3, h4, h5⟩ := upsertAll_distinct marshal kvs s0
    (by rw [hc]; simp [NodupKeys, keys]) hdist
    (by intro k _; rw [hc]; rfl) hok (by omega) (by omega)
  rw [GetAll_eq_contents _ h1]
  refine ⟨by rw [h2, hcount]; simp, by rw [h3, hc]; simp, ?_, h5⟩
  intro k
  constructor
  · intro hk
    by_contra hnot
    apply hk
    rw [h4 k hnot, hc]
    rfl
  · intro hk
    simp only [List.mem_map] at hk
    obtain ⟨p, hp, rfl⟩ := hk
    obtain ⟨v, c, _, _, hl⟩ := h5 p hp
    simp [hl]

/-- C7 on two keys. -/
theorem upsert_distinct_keys_witness :
    (upsertAll sampleMarshal
      { Db := [], bucketName := "IpList", contents := [], count := 0 }
      [("a", some (.bool true)), ("b", some (.bool false))]).2.count = 2 :=
  (upsert_distinct_keys sampleMarshal "proxy.db" "IpList"
    { Db := [], bucketName := "IpList", contents := [], count := 0 }
    [("a", some (.bool true)), ("b", some (.bool false))]
    (by rfl) (by decide) (by decide) (by decide)).1

/-! ## Random sampling -/

theorem mem_Store (m : Entries) (key : String) (v : Bytes) (e : String × Bytes)
    (h : e ∈ Store m key v) : e ∈ m ∨ e = (key, v) := by
  induction m with
  | nil => simpa [Store] using h
  | cons a m ih =>
    obtain ⟨k, w⟩ := a
    by_cases hk : k = key
    · simp only [Store, hk, if_true, List.mem_cons] at h
      rcases h with h | h
      · exact Or.inr h
      · exact Or.inl (List.mem_cons_of_mem _ h)
    · simp only [Store, hk, if_false, List.mem_cons] at h
      rcases h with h | h
      · exact Or.inl (by simp [h])
      · rcases ih h with h2 | h2
        · exact Or.inl (List.mem_cons_of_mem _ h2)
        · exact Or.inr h2

theorem mem_Delete (m : Entries) (key : String) (e : String × Bytes)
    (h : e ∈ Delete m key) : e ∈ m := by
  induction m with
  | nil => simp [Delete] at h
  | cons a m ih =>
    obtain ⟨k, w⟩ := a
    by_cases hk : k = key
    · simp only [Delete, hk, if_true] at h
      exact List.mem_cons_of_mem _ (ih h)
    · simp only [Delete, hk, if_false, List.mem_cons] at h
      rcases h with h | h
      · simp [h]
      · exact List.mem_cons_of_mem _ (ih h)

theorem apply_MirrorInv {α : Type} (marshal : α → Option Bytes)
    (hjson : ∀ v c, marshal v = some c → c ≠ []) (s : BoltDbStorage) (op : Op α)
    (h : MirrorInv s) : MirrorInv (op.apply marshal s) := by
  obtain ⟨hn, hb, hc⟩ := h
  cases op with
  | addOrUpdate key value dbOk =>
    simp only [Op.apply]
    by_cases hs : (AddOrUpdate marshal s key value dbOk).1 = none
    · obtain ⟨v, c, hv, hm, hd⟩ := (AddOrUpdate_success_iff marshal s key value dbOk).1 hs
      subst hv
      subst hd
      cases hl : Load s.contents key with
      | none =>
        rw [AddOrUpdate_absent marshal s key v c hm hl]
        refine ⟨NodupKeys_Store _ _ _ hn, ?_, ?_⟩
        · intro e he
          rcases mem_Store _ _ _ _ he with h1 | h1
          · exact hb e h1
          · rw [h1]
            exact hjson v c hm
        · show AddInt32 s.count 1 = wrapInt32 ((Store s.contents key c).length : Nat)
          rw [Store_absent _ _ _ hl, hc]
          unfold AddInt32
          rw [wrapInt32_add]
          simp
      | some old =>
        rw [AddOrUpdate_present marshal s key v c old hm hl]
        exact ⟨hn, hb, hc⟩
    · rw [AddOrUpdate_failure marshal s key value dbOk hs]
      exact ⟨hn, hb, hc⟩
  | delete key dbOk =>
    simp only [Op.apply]
    cases dbOk with
    | false =>
      rw [Delete_failure]
      exact ⟨hn, hb, hc⟩
    | true =>
      cases hl : Load s.contents key with
      | none =>
        rw [Delete_absent_key s key hl]
        exact ⟨hn, hb, hc⟩
      | some old =>
        rw [Delete_present s key old hl]
        have hlen := length_Delete_present s.contents key hn (by simp [hl])
        refine ⟨NodupKeys_Delete _ _ hn, fun e he => hb e (mem_Delete _ _ _ he), ?_⟩
        show AddInt32 s.count (-1) = wrapInt32 ((Delete s.contents key).length : Nat)
        rw [hc]
        unfold AddInt32
        rw [wrapInt32_add]
        congr 1
        omega

theorem run_MirrorInv {α : Type} (marshal : α → Option Bytes)
    (hjson : ∀ v c, marshal v = some c → c ≠ []) (ops : List (Op α)) (s : BoltDbStorage)
    (h : MirrorInv s) : MirrorInv (run marshal s ops) := by
  induction ops generalizing s with
  | nil => simpa [run] using h
  | cons op ops ih =>
    simp only [run, List.foldl_cons]
    exact ih _ (apply_MirrorInv marshal hjson s op h)

theorem pickRange_keys (m : Entries) (p : Pick) (h0 : 0 ≤ p.index)
    (h1 : p.index < m.length) :
    (pickRange m p).randomKey ∈ keys m ∧
      ((pickRange m p).defaultKey = p.defaultKey ∨ (pickRange m p).defaultKey ∈ keys m) := by
  induction m generalizing p with
  | nil => simp at h1; omega
  | cons e m ih =>
    obtain ⟨key, w⟩ := e
    simp only [List.length_cons, Nat.cast_add, Nat.cast_one] at h1
    by_cases hd : p.defaultKey = ""
    · by_cases hi : p.index = 0
      · simp [pickRange, hd, hi, keys]
      · have := ih { randomKey := p.randomKey, defaultKey := key, index := p.index - 1 }
          (by simp only; omega) (by simp only; omega)
        simp only [pickRange, hd, if_true, hi, if_false, keys, List.map_cons, List.mem_cons]
        simp only [keys] at this
        refine ⟨Or.inr this.1, ?_⟩
        rcases this.2 with h2 | h2
        · exact Or.inr (Or.inl h2)
        · exact Or.inr (Or.inr h2)
    · by_cases hi : p.index = 0
      · simp [pickRange, hd, hi, keys]
      · have := ih { p with index := p.index - 1 }
          (by simp only; omega) (by simp only; omega)
        simp only [pickRange, hd, if_false, hi, keys, List.map_cons, List.mem_cons]
        simp only [keys] at this
        refine ⟨Or.inr this.1, ?_⟩
        rcases this.2 with h2 | h2
        · exact Or.inl h2
        · exact Or.inr (Or.inr h2)

/-- C8: in every state reached from an engine opened over an empty bucket by
`AddOrUpdate` and `Delete` calls (encodings being JSON texts, hence not empty),
`GetRandomOne()` returns nil when the mirror is empty; when it is not, every
index drawn in `[0, count)` makes it return the non-nil bytes stored under some
key of the mirror, and with fewer than 2^31 entries the counter is their number,
so that such an index exists. -/
theorem GetRandomOne_reachable {α : Type} (marshal : α → Option Bytes)
    (fileName bucketName : String) (s0 : BoltDbStorage) (ops : List (Op α))
    (hjson : ∀ v c, marshal v = some c → c ≠ [])
    (hnew : NewBoltDbStorage fileName bucketName (.ok []) = .ok s0) :
    ((run marshal s0 ops).contents = [] →
      ∀ index, GetRandomOne (run marshal s0 ops) index = none) ∧
    ((run marshal s0 ops).contents ≠ [] →
      ∀ index, 0 ≤ index → index < (run marshal s0 ops).count →
        ∃ key c, Load (run marshal s0 ops).contents key = some c ∧ c ≠ [] ∧
          GetRandomOne (run marshal s0 ops) index = some c) ∧
    ((run marshal s0 ops).contents.length < 2147483648 →
      (run marshal s0 ops).count = (run marshal s0 ops).contents.length) := by
  obtain ⟨_, hc, hcount⟩ := NewBoltDbStorage_ok fileName bucketName [] s0 hnew
    (by simp [NodupKeys, keys]) (by simp)
  have hinv0 : MirrorInv s0 := by
    refine ⟨by rw [hc]; simp [NodupKeys, keys], by rw [hc]; simp, ?_⟩
    rw [hcount, hc]
    simp [wrapInt32]
  obtain ⟨hn, hb, hcnt⟩ := run_MirrorInv marshal hjson ops s0 hinv0
  generalize run marshal s0 ops = s at hn hb hcnt ⊢
  refine ⟨?_, ?_, ?_⟩
  · intro he index
    rw [he] at hcnt
    simp [GetRandomOne, hcnt, wrapInt32]
  · intro _ index h0 h1
    have hle := wrapInt32_le s.contents.length
    have hpick := pickRange_keys s.contents
      { randomKey := "", defaultKey := "", index := index } h0 (by simp only; omega)
    have hne : s.count ≠ 0 := by omega
    have hkey : (if (pickRange s.contents
          { randomKey := "", defaultKey := "", index := index }).randomKey = ""
        then (pickRange s.contents
          { randomKey := "", defaultKey := "", index := index }).defaultKey
        else (pickRange s.contents
          { randomKey := "", defaultKey := "", index := index }).randomKey) ∈
        keys s.contents := by
      by_cases hr : (pickRange s.contents
          { randomKey := "", defaultKey := "", index := index }).randomKey = ""
      · rw [if_pos hr]
        rcases hpick.2 with h2 | h2
        · rw [h2]
          simp only
          rw [← hr]
          exact hpick.1
        · exact h2
      · rw [if_neg hr]
        exact hpick.1
    have hG : GetRandomOne s index = Get s (if (pickRange s.contents
          { randomKey := "", defaultKey := "", index := index }).randomKey = ""
        then (pickRange s.contents
          { randomKey := "", defaultKey := "", index := index }).defaultKey
        else (pickRange s.contents
          { randomKey := "", defaultKey := "", index := index }).randomKey) := by
      unfold GetRandomOne
      rw [if_neg hne]
    obtain ⟨key, hdef, hmem⟩ : ∃ key, (if (pickRange s.contents
          { randomKey := "", defaultKey := "", index := index }).randomKey = ""
        then (pickRange s.contents
          { randomKey := "", defaultKey := "", index := index }).defaultKey
        else (pickRange s.contents
          { randomKey := "", defaultKey := "", index := index }).randomKey) = key ∧
        key ∈ keys s.contents := ⟨_, rfl, hkey⟩
    rw [hdef] at hG
    cases hl : Load s.contents key with
    | none => exact absurd hmem ((Load_eq_none_iff _ _).1 hl)
    | some c =>
      have hcne : c ≠ [] := hb (key, c) (Load_mem _ _ _ hl)
      exact ⟨key, c, hl, hcne, by rw [hG]; exact Get_of_Load s key c hl hcne⟩
  · intro hlt
    rw [hcnt]
    apply wrapInt32_of_IsInt32
    unfold IsInt32
    omega

/-- C8 on the engine holding `a` and `b`, at the drawn index 1. -/
theorem GetRandomOne_reachable_witness :
    ∃ key c, Load (run sampleMarshal
        { Db := [], bucketName := "IpList", contents := [], count := 0 }
        [Op.addOrUpdate "a" (some (.bool true)) true,
         Op.addOrUpdate "b" (some (.bool false)) true]).contents key = some c ∧ c ≠ [] ∧
      GetRandomOne (run sampleMarshal
        { Db := [], bucketName := "IpList", contents := [], count := 0 }
        [Op.addOrUpdate "a" (some (.bool true)) true,
         Op.addOrUpdate "b" (some (.bool false)) true]) 1 = some c :=
  (GetRandomOne_reachable sampleMarshal "proxy.db" "IpList"
    { Db := [], bucketName := "IpList", contents := [], count := 0 }
    [Op.addOrUpdate "a" (some (.bool true)) true,
     Op.addOrUpdate "b" (some (.bool false)) true]
    (by intro v c h; cases v with
        | bool b => cases b <;> (cases h; decide)
        | chan => cases h)
    (by rfl)).2.1 (by decide) 1 (by decide) (by decide)

end Storage

namespace Storage

/-! ## Existence of a key -/

theorem Exist_iff_Get (s : BoltDbStorage) (key : String) :
    Exist s key = true ↔ Get s key ≠ none := by
  unfold Exist
  cases Get s key <;> simp

theorem Exist_iff_Load (s : BoltDbStorage) (key : String)
    (hb : ∀ e ∈ s.contents, e.2 ≠ []) :
    Exist s key = true ↔ Load s.contents key ≠ none := by
  cases hl : Load s.contents key with
  | none => simp [Exist, Get, hl]
  | some c =>
    have hc : c ≠ [] := hb (key, c) (Load_mem _ _ _ hl)
    simp [Exist, Get, hl, hc]

theorem Load_Store_eq_none_iff (m : Entries) (key k : String) (v : Bytes) :
    Load (Store m key v) k = none ↔ k ≠ key ∧ Load m k = none := by
  by_cases h : k = key
  · subst h
    simp [Load_Store_self]
  · simp [Load_Store_ne m key k v h, h]

theorem Load_Delete_eq_none_iff (m : Entries) (key k : String) :
    Load (Delete m key) k = none ↔ k = key ∨ Load m k = none := by
  by_cases h : k = key
  · subst h
    simp [Load_Delete_self]
  · simp [Load_Delete_ne m key k h, h]

theorem apply_KeysInv {α : Type} (marshal : α → Option Bytes)
    (hjson : ∀ v c, marshal v = some c → c ≠ []) (s : BoltDbStorage) (op : Op α)
    (h : KeysInv s) : KeysInv (op.apply marshal s) := by
  obtain ⟨hb, hk⟩ := h
  cases op with
  | addOrUpdate key value dbOk =>
    simp only [Op.apply]
    by_cases hs : (AddOrUpdate marshal s key value dbOk).1 = none
    · obtain ⟨v, c, hv, hm, hd⟩ := (AddOrUpdate_success_iff marshal s key value dbOk).1 hs
      subst hv
      subst hd
      cases hl : Load s.contents key with
      | none =>
        rw [AddOrUpdate_absent marshal s key v c hm hl]
        refine ⟨?_, ?_⟩
        · intro e he
          rcases mem_Store _ _ _ _ he with h1 | h1
          · exact hb e h1
          · rw [h1]
            exact hjson v c hm
        · intro k
          show Load (Store s.contents key c) k = none ↔ Load (Store s.Db key c) k = none
          rw [Load_Store_eq_none_iff, Load_Store_eq_none_iff, hk k]
      | some old =>
        rw [AddOrUpdate_present marshal s key v c old hm hl]
        refine ⟨hb, ?_⟩
        intro k
        show Load s.contents k = none ↔ Load (Store s.Db key c) k = none
        rw [Load_Store_eq_none_iff, ← hk k]
        constructor
        · intro h1
          refine ⟨?_, h1⟩
          intro h2
          rw [h2, hl] at h1
          cases h1
        · exact fun h1 => h1.2
    · rw [AddOrUpdate_failure marshal s key value dbOk hs]
      exact ⟨hb, hk⟩
  | delete key dbOk =>
    simp only [Op.apply]
    cases dbOk with
    | false =>
      rw [Delete_failure]
      exact ⟨hb, hk⟩
    | true =>
      cases hl : Load s.contents key with
      | none =>
        rw [Delete_absent_key s key hl]
        refine ⟨hb, ?_⟩
        intro k
        show Load s.contents k = none ↔ Load (Delete s.Db key) k = none
        rw [Load_Delete_eq_none_iff, ← hk k]
        constructor
        · exact fun h1 => Or.inr h1
        · rintro (h1 | h1)
          · rw [h1]
            exact hl
          · exact h1
      | some old =>
        rw [Delete_present s key old hl]
        refine ⟨fun e he => hb e (mem_Delete _ _ _ he), ?_⟩
        intro k
        show Load (Delete s.contents key) k = none ↔ Load (Delete s.Db key) k = none
        rw [Load_Delete_eq_none_iff, Load_Delete_eq_none_iff, hk k]

theorem run_KeysInv {α : Type} (marshal : α → Option Bytes)
    (hjson : ∀ v c, marshal v = some c → c ≠ []) (ops : List (Op α)) (s : BoltDbStorage)
    (h : KeysInv s) : KeysInv (run marshal s ops) := by
  induction ops generalizing s with
  | nil => simpa [run] using h
  | cons op ops ih =>
    simp only [run, List.foldl_cons]
    exact ih _ (apply_KeysInv marshal hjson s op h)

theorem NewBoltDbStorage_mirror (fileName bucketName : String) (bucket : Entries)
    (s : BoltDbStorage) (h : NewBoltDbStorage fileName bucketName (.ok bucket) = .ok s)
    (hk : NodupKeys bucket) : s.Db = bucket ∧ s.contents = bucket := by
  unfold NewBoltDbStorage at h
  split at h
  · cases h
  · split at h
    · cases h
    · simp only [Except.ok.injEq] at h
      subst h
      unfold sync
      refine ⟨(foldl_syncEntry_Db _ _).1, ?_⟩
      rw [foldl_syncEntry_contents]
      simp only
      rw [foldl_Store_append bucket [] hk (by simp [keys])]
      simp

/-- C9: in every state reached from an engine opened over a bucket (distinct
keys, every value with at least one byte, as is every value the engine writes)
by any sequence of `AddOrUpdate` and `Delete` calls, `Exist(key)` is true
exactly when the mirror holds an entry for `key`, which is exactly when the
bucket holds one, and exactly when `Get(key)` is not nil. -/
theorem Exist_iff_holds {α : Type} (marshal : α → Option Bytes)
    (fileName bucketName : String) (bucket : Entries) (s0 : BoltDbStorage)
    (ops : List (Op α)) (key : String)
    (hjson : ∀ v c, marshal v = some c → c ≠ [])
    (hnew : NewBoltDbStorage fileName bucketName (.ok bucket) = .ok s0)
    (hkeys : NodupKeys bucket) (hvalues : ∀ e ∈ bucket, e.2 ≠ []) :
    (Exist (run marshal s0 ops) key = true ↔
      Load (run marshal s0 ops).contents key ≠ none) ∧
    (Load (run marshal s0 ops).contents key ≠ none ↔
      Load (run marshal s0 ops).Db key ≠ none) ∧
    (Exist (run marshal s0 ops) key = true ↔ Get (run marshal s0 ops) key ≠ none) := by
  obtain ⟨hdb, hc⟩ := NewBoltDbStorage_mirror fileName bucketName bucket s0 hnew hkeys
  have hinv0 : KeysInv s0 := ⟨by rw [hc]; exact hvalues, by intro k; rw [hc, hdb]⟩
  obtain ⟨hb, hk⟩ := run_KeysInv marshal hjson ops s0 hinv0
  exact ⟨Exist_iff_Load _ key hb, not_congr (hk key), Exist_iff_Get _ key⟩

/-- C9 on an engine opened over a bucket holding `a`, after an upsert of `b` and
a delete of `a`: `Exist("b")` is true and the mirror holds `b`. -/
theorem Exist_iff_holds_witness :
    Exist (run sampleMarshal
        { Db := [("a", [116, 114, 117, 101])], bucketName := "IpList",
          contents := [("a", [116, 114, 117, 101])], count := 1 }
        [Op.addOrUpdate "b" (some (.bool false)) true, Op.delete "a" true]) "b" = true :=
  (Exist_iff_holds sampleMarshal "proxy.db" "IpList" [("a", [116, 114, 117, 101])]
    { Db := [("a", [116, 114, 117, 101])], bucketName := "IpList",
      contents := [("a", [116, 114, 117, 101])], count := 1 }
    [Op.addOrUpdate "b" (some (.bool false)) true, Op.delete "a" true] "b"
    (by intro v c h; cases v with
        | bool b => cases b <;> (cases h; decide)
        | chan => cases h)
    (by rfl) (by decide) (by decide)).1.2 (by decide)

end Storage

namespace Collector

/-! ## The URL cursor -/

theorem Next_of_lt (c : SelectorCollector) (h : c.currentIndex < c.urls.length) :
    Next c = (true, { c with currentUrl := c.urls.get ⟨c.currentIndex, h⟩,
                             currentIndex := c.currentIndex + 1 }) := by
  simp [Next, h]

theorem Next_of_ge (c : SelectorCollector) (h : c.urls.length ≤ c.currentIndex) :
    Next c = (false, c) := by
  have : ¬ c.currentIndex < c.urls.length := by omega
  simp [Next, this]

theorem Next_false_iff (c : SelectorCollector) :
    (Next c).1 = false ↔ c.urls.length ≤ c.currentIndex := by
  by_cases h : c.currentIndex < c.urls.length
  · rw [Next_of_lt c h]
    simp
    omega
  · rw [Next_of_ge c (by omega)]
    simp
    omega

theorem calls_of_exhausted (c : SelectorCollector) (h : c.urls.length ≤ c.currentIndex)
    (m : Nat) : calls m c = c := by
  induction m with
  | zero => rfl
  | succ m ih =>
    show (Next (calls m c)).2 = c
    rw [ih, Next_of_ge c h]

theorem calls_fresh (urls : List String) (i : Nat) (h : i ≤ urls.length) :
    (calls i (fresh urls)).currentIndex = i ∧ (calls i (fresh urls)).urls = urls := by
  induction i with
  | zero => exact ⟨rfl, rfl⟩
  | succ i ih =>
    obtain ⟨h1, h2⟩ := ih (by omega)
    have hlt : (calls i (fresh urls)).currentIndex < (calls i (fresh urls)).urls.length := by
      rw [h1, h2]
      omega
    show (Next (calls i (fresh urls))).2.currentIndex = i + 1 ∧
      (Next (calls i (fresh urls))).2.urls = urls
    rw [Next_of_lt _ hlt]
    exact ⟨by simp [h1], h2⟩

theorem calls_fresh_of_ge (urls : List String) (j : Nat) (h : urls.length ≤ j) :
    (calls j (fresh urls)).currentIndex = urls.length ∧
      (calls j (fresh urls)).urls = urls := by
  induction j with
  | zero =>
    have := calls_fresh urls 0 (by omega)
    exact ⟨by rw [this.1]; omega, this.2⟩
  | succ j ih =>
    by_cases hj : urls.length ≤ j
    · obtain ⟨h1, h2⟩ := ih hj
      show (Next (calls j (fresh urls))).2.currentIndex = urls.length ∧
        (Next (calls j (fresh urls))).2.urls = urls
      rw [Next_of_ge _ (by rw [h1, h2])]
      exact ⟨h1, h2⟩
    · have : j + 1 = urls.length := by omega
      have h3 := calls_fresh urls (j + 1) (by omega)
      exact ⟨by rw [h3.1, this], h3.2⟩

/-- C10: on the collector built for a list of `n` URLs, the `(i+1)`-th call of
`Next()` for `i < n` returns true, makes the `i`-th URL (counting from 0) the
current one and moves the cursor to `i + 1`; every call after `n` calls returns
false and leaves the collector as it was; and from any collector on which
`Next()` has returned false, every later call returns false with the state
unchanged. -/
theorem Next_enumerates (urls : List String) :
    (∀ i (h : i < urls.length),
      Next (calls i (fresh urls)) =
        (true, { currentUrl := urls.get ⟨i, h⟩, currentIndex := i + 1, urls := urls })) ∧
    (∀ j, urls.length ≤ j →
      Next (calls j (fresh urls)) = (false, calls j (fresh urls))) ∧
    (∀ c : SelectorCollector, (Next c).1 = false →
      ∀ m, Next (calls m c) = (false, c)) := by
  refine ⟨?_, ?_, ?_⟩
  · intro i h
    obtain ⟨h1, h2⟩ := calls_fresh urls i (by omega)
    have hlt : (calls i (fresh urls)).currentIndex < (calls i (fresh urls)).urls.length := by
      rw [h1, h2]
      exact h
    rw [Next_of_lt _ hlt]
    generalize calls i (fresh urls) = c at h1 h2 hlt ⊢
    obtain ⟨u, idx, us⟩ := c
    simp only at h1 h2
    subst h1
    subst h2
    rfl
  · intro j h
    obtain ⟨h1, h2⟩ := calls_fresh_of_ge urls j h
    exact Next_of_ge _ (by rw [h1, h2])
  · intro c hc m
    have hge := (Next_false_iff c).1 hc
    rw [calls_of_exhausted c hge m]
    exact Next_of_ge c hge

/-- C10 on a list of two URLs: the second call makes the second URL current and
the third call returns false. -/
theorem Next_enumerates_witness :
    Next (calls 1 (fresh ["http://a/1", "http://a/2"])) =
      (true, { currentUrl := "http://a/2", currentIndex := 2,
               urls := ["http://a/1", "http://a/2"] }) ∧
    Next (calls 2 (fresh ["http://a/1", "http://a/2"])) =
      (false, calls 2 (fresh ["http://a/1", "http://a/2"])) :=
  ⟨(Next_enumerates ["http://a/1", "http://a/2"]).1 1 (by decide),
   (Next_enumerates ["http://a/1", "http://a/2"]).2.1 2 (by decide)⟩

end Collector

namespace Storage

/-! ## Random sampling against its reference definition -/

theorem GetRandomOne_eq_Get_pickedKey (s : BoltDbStorage) (index : Int) (h : s.count ≠ 0) :
    GetRandomOne s index = Get s (pickedKey s.contents index) := by
  unfold GetRandomOne pickedKey
  rw [if_neg h]

theorem pickRange_lt (m : Entries) (p : Pick) (i : Nat) (e : String × Bytes)
    (hp : p.index = i) (he : m[i]? = some e) : (pickRange m p).randomKey = e.1 := by
  induction m generalizing p i with
  | nil => simp at he
  | cons a m ih =>
    obtain ⟨key, w⟩ := a
    cases i with
    | zero =>
      simp only [List.getElem?_cons_zero, Option.some.injEq] at he
      subst he
      have h0 : p.index = 0 := by simpa using hp
      by_cases hd : p.defaultKey = "" <;> simp [pickRange, hd, h0]
    | succ i =>
      simp only [List.getElem?_cons_succ] at he
      have h0 : p.index ≠ 0 := by rw [hp]; simp only [Nat.cast_add, Nat.cast_one]; omega
      have h1 : p.index - 1 = i := by rw [hp]; simp only [Nat.cast_add, Nat.cast_one]; omega
      by_cases hd : p.defaultKey = ""
      · simp only [pickRange, hd, if_true, h0, if_false]
        exact ih _ i (by simpa using h1) he
      · simp only [pickRange, hd, if_false, h0]
        exact ih _ i (by simpa using h1) he

theorem pickRange_ge (m : Entries) (p : Pick) (i : Nat) (hp : p.index = i)
    (hlen : m.length ≤ i) (hk : ∀ k ∈ keys m, k ≠ "") :
    (pickRange m p).randomKey = p.randomKey ∧
      (pickRange m p).defaultKey =
        if p.defaultKey = "" then
          (match m.head? with
           | some e => e.1
           | none => "")
        else p.defaultKey := by
  induction m generalizing p i with
  | nil =>
    by_cases hd : p.defaultKey = "" <;> simp [pickRange, hd]
  | cons a m ih =>
    obtain ⟨key, w⟩ := a
    have hkey : key ≠ "" := hk key (by simp [keys])
    have hk2 : ∀ k ∈ keys m, k ≠ "" := by
      intro k hk3
      exact hk k (by simp only [keys, List.map_cons, List.mem_cons]; exact Or.inr hk3)
    simp only [List.length_cons] at hlen
    have h0 : p.index ≠ 0 := by rw [hp]; omega
    have h1 : p.index - 1 = ((i - 1 : Nat) : Int) := by rw [hp]; omega
    by_cases hd : p.defaultKey = ""
    · simp only [pickRange, hd, if_true, h0, if_false, List.head?_cons]
      have := ih { randomKey := p.randomKey, defaultKey := key, index := p.index - 1 }
        (i - 1) h1 (by omega) hk2
      simp only [hkey, if_false] at this
      exact this
    · simp only [pickRange, hd, if_false, h0]
      have := ih { p with index := p.index - 1 } (i - 1) h1 (by omega) hk2
      simp only [hd, if_false] at this
      exact this

theorem pickedKey_lt (m : Entries) (i : Nat) (e : String × Bytes) (he : m[i]? = some e)
    (hk : ∀ k ∈ keys m, k ≠ "") : pickedKey m i = e.1 := by
  have h := pickRange_lt m { randomKey := "", defaultKey := "", index := i } i e rfl he
  have hmem : e ∈ m := List.getElem?_mem he
  have hne : e.1 ≠ "" := hk e.1 (List.mem_map_of_mem Prod.fst hmem)
  unfold pickedKey
  rw [h, if_neg hne]

theorem pickedKey_ge (m : Entries) (i : Nat) (e0 : String × Bytes) (hlen : m.length ≤ i)
    (h0 : m.head? = some e0) (hk : ∀ k ∈ keys m, k ≠ "") : pickedKey m i = e0.1 := by
  have h := pickRange_ge m { randomKey := "", defaultKey := "", index := i } i rfl hlen hk
  unfold pickedKey
  rw [h.1, h.2, h0]
  simp

theorem Load_of_mem (m : Entries) (e : String × Bytes) (hn : NodupKeys m) (he : e ∈ m) :
    Load m e.1 = some e.2 := by
  induction m with
  | nil => simp at he
  | cons a m ih =>
    obtain ⟨k, w⟩ := a
    have hn2 : k ∉ keys m ∧ NodupKeys m := by
      simpa [NodupKeys, keys] using hn
    simp only [List.mem_cons] at he
    rcases he with he | he
    · subst he
      simp [Load]
    · have hne : ¬ k = e.1 := by
        intro h
        exact hn2.1 (h ▸ List.mem_map_of_mem Prod.fst he)
      simp only [Load, hne, if_false]
      exact ih hn2.2 he

theorem Get_of_mem (s : BoltDbStorage) (e : String × Bytes) (hn : NodupKeys s.contents)
    (he : e ∈ s.contents) : Get s e.1 = valueOf e := by
  simp [Get, valueOf, Load_of_mem s.contents e hn he]

theorem index_unique (m : Entries) (hn : NodupKeys m) (j j2 : Nat) (e e2 : String × Bytes)
    (h1 : m[j]? = some e) (h2 : m[j2]? = some e2) (hkey : e2.1 = e.1) : j2 = j := by
  obtain ⟨hj, hje⟩ := List.getElem?_eq_some.1 h1
  obtain ⟨hj2, hje2⟩ := List.getElem?_eq_some.1 h2
  have hl : (keys m).length = m.length := by simp [keys]
  have hb2 : j2 < (keys m).length := by omega
  have hb : j < (keys m).length := by omega
  have a1 : (keys m)[j2] = e2.1 := by simp [keys, hje2]
  have a2 : (keys m)[j] = e.1 := by simp [keys, hje]
  exact (List.Nodup.getElem_inj_iff hn).1 (by rw [a1, a2, hkey])

/-- C18: on a mirror with at least one entry, non-empty distinct keys and a
non-zero counter, `GetRandomOne` with drawn index `i` equals the reference
definition (the value of `e_i` when `i` is below the number of entries, the
value of `e_0` otherwise); hence when the counter is the number of entries,
every entry is the one picked, and its value the one returned, for exactly one
index below the counter. -/
theorem GetRandomOne_eq_reference (s : BoltDbStorage) (i : Nat)
    (hm : s.contents ≠ []) (hk : ∀ k ∈ keys s.contents, k ≠ "")
    (hn : NodupKeys s.contents) (hc : s.count ≠ 0) :
    GetRandomOne s i = GetRandomOneRef s.contents i ∧
    (s.count = s.contents.length →
      ∀ e ∈ s.contents, ∃ j : Nat, (j : Int) < s.count ∧ s.contents[j]? = some e ∧
        pickedKey s.contents j = e.1 ∧ GetRandomOne s j = valueOf e ∧
        ∀ j2 : Nat, (j2 : Int) < s.count → pickedKey s.contents j2 = e.1 → j2 = j) := by
  constructor
  · rw [GetRandomOne_eq_Get_pickedKey s i hc]
    unfold GetRandomOneRef
    cases he : s.contents[i]? with
    | some e =>
      rw [pickedKey_lt s.contents i e he hk]
      exact Get_of_mem s e hn (List.getElem?_mem he)
    | none =>
      have hlen : s.contents.length ≤ i := by
        simpa using he
      cases h0 : s.contents.head? with
      | none => exact absurd (List.head?_eq_none_iff.1 h0) hm
      | some e0 =>
        rw [pickedKey_ge s.contents i e0 hlen h0 hk]
        exact Get_of_mem s e0 hn (List.mem_of_mem_head? h0)
  · intro hcount e he
    obtain ⟨j, hj⟩ := List.mem_iff_getElem?.1 he
    obtain ⟨hjlt, _⟩ := List.getElem?_eq_some.1 hj
    refine ⟨j, by rw [hcount]; exact_mod_cast hjlt, hj, pickedKey_lt s.contents j e hj hk, ?_, ?_⟩
    · rw [GetRandomOne_eq_Get_pickedKey s j hc, pickedKey_lt s.contents j e hj hk]
      exact Get_of_mem s e hn he
    · intro j2 hj2 hp
      rw [hcount] at hj2
      have hj2lt : j2 < s.contents.length := by exact_mod_cast hj2
      have h2 : s.contents[j2]? = some s.contents[j2] :=
        List.getElem?_eq_some.2 ⟨hj2lt, rfl⟩
      rw [pickedKey_lt s.contents j2 _ h2 hk] at hp
      exact index_unique s.contents hn j j2 e _ hj h2 hp

/-- C18 on a mirror of two entries, at the drawn index 1. -/
theorem GetRandomOne_eq_reference_witness :
    GetRandomOne
      { Db := [("a", [116, 114, 117, 101]), ("b", [102, 97, 108, 115, 101])],
        bucketName := "IpList",
        contents := [("a", [116, 114, 117, 101]), ("b", [102, 97, 108, 115, 101])],
        count := 2 } (1 : Nat) = some [102, 97, 108, 115, 101] :=
  (GetRandomOne_eq_reference
    { Db := [("a", [116, 114, 117, 101]), ("b", [102, 97, 108, 115, 101])],
      bucketName := "IpList",
      contents := [("a", [116, 114, 117, 101]), ("b", [102, 97, 108, 115, 101])],
      count := 2 } 1 (by decide) (by decide) (by decide) (by decide)).1.trans (by decide)

end Storage

namespace Collector

/-! ## Lemmas on Go maps -/

theorem mapGet_mapSet_self {β : Type} (m : List (String × β)) (key : String) (v : β) :
    mapGet (mapSet m key v) key = some v := by
  induction m with
  | nil => simp [mapSet, mapGet]
  | cons e m ih =>
    obtain ⟨k, w⟩ := e
    by_cases hk : k = key
    · simp [mapSet, mapGet, hk]
    · simp [mapSet, mapGet, hk, ih]

theorem mapGet_mapSet_ne {β : Type} (m : List (String × β)) (key key2 : String) (v : β)
    (h : key2 ≠ key) : mapGet (mapSet m key v) key2 = mapGet m key2 := by
  have h2 : ¬ key = key2 := fun h3 => h h3.symm
  induction m with
  | nil => simp [mapSet, mapGet, h2]
  | cons e m ih =>
    obtain ⟨k, w⟩ := e
    by_cases hk : k = key
    · subst hk
      simp [mapSet, mapGet, h2]
    · by_cases hk2 : k = key2
      · subst hk2
        simp [mapSet, mapGet, hk]
      · simp [mapSet, mapGet, hk, hk2, ih]

theorem mem_mapSet {β : Type} (m : List (String × β)) (key : String) (v : β)
    (e : String × β) (h : e ∈ mapSet m key v) : e ∈ m ∨ e = (key, v) := by
  induction m with
  | nil => simpa [mapSet] using h
  | cons a m ih =>
    obtain ⟨k, w⟩ := a
    by_cases hk : k = key
    · simp only [mapSet, hk, if_true, List.mem_cons] at h
      rcases h with h | h
      · exact Or.inr h
      · exact Or.inl (List.mem_cons_of_mem _ h)
    · simp only [mapSet, hk, if_false, List.mem_cons] at h
      rcases h with h | h
      · exact Or.inl (by simp [h])
      · rcases ih h with h2 | h2
        · exact Or.inl (List.mem_cons_of_mem _ h2)
        · exact Or.inr h2

theorem mapGet_mem {β : Type} (m : List (String × β)) (key : String) (v : β)
    (h : mapGet m key = some v) : (key, v) ∈ m := by
  induction m with
  | nil => simp [mapGet] at h
  | cons e m ih =>
    obtain ⟨k, w⟩ := e
    by_cases hk : k = key
    · simp [mapGet, hk] at h
      simp [hk, h]
    · simp [mapGet, hk] at h
      exact List.mem_cons_of_mem _ (ih h)

theorem mapGet_eq_none_iff {β : Type} (m : List (String × β)) (key : String) :
    mapGet m key = none ↔ key ∉ m.map Prod.fst := by
  induction m with
  | nil => simp [mapGet]
  | cons e m ih =>
    obtain ⟨k, v⟩ := e
    by_cases h : k = key
    · simp [mapGet, h]
    · have h2 : ¬ key = k := fun h3 => h h3.symm
      simp [mapGet, h, h2, ih]

theorem mapSet_absent {β : Type} (m : List (String × β)) (key : String) (v : β)
    (h : mapGet m key = none) : mapSet m key v = m ++ [(key, v)] := by
  induction m with
  | nil => simp [mapSet]
  | cons e m ih =>
    obtain ⟨k, w⟩ := e
    by_cases hk : k = key
    · simp [mapGet, hk] at h
    · simp [mapGet, hk] at h
      simp [mapSet, hk, ih h]

/-! ## Construction -/

/-- What `addRule` stores for an item that is not ignored. -/
theorem addRule_valid (selectorMap : List (String × List String)) (value : ValueRule)
    (hn : value.Name ≠ "") (hr : value.Rule ≠ "") :
    ∃ v, addRule selectorMap value = mapSet selectorMap value.Name v ∧
      v.head? = some value.Rule ∧ (value.Name = "table" → v = [value.Rule]) := by
  by_cases ht : value.Name = "table"
  · exact ⟨[value.Rule], by simp [addRule, hn, hr, ht], rfl, fun _ => rfl⟩
  · by_cases ha : value.Attr = ""
    · exact ⟨[value.Rule], by simp [addRule, hn, hr, ht, ha], rfl, fun h => absurd h ht⟩
    · exact ⟨[value.Rule, value.Attr], by simp [addRule, hn, hr, ht, ha], rfl,
        fun h => absurd h ht⟩

theorem addRule_ignored (selectorMap : List (String × List String)) (value : ValueRule)
    (h : value.Name = "" ∨ value.Rule = "") : addRule selectorMap value = selectorMap := by
  simp [addRule, h]

/-- Every rule of the table built from `items` on top of `acc` is a rule of
`acc` or comes from an item with a non-empty name and path. -/
theorem mem_foldl_addRule (items : List ValueRule) (acc : List (String × List String))
    (e : String × List String) (h : e ∈ items.foldl addRule acc) :
    e ∈ acc ∨ ∃ item ∈ items, item.Name = e.1 ∧ item.Name ≠ "" ∧ item.Rule ≠ "" ∧
      e.2.head? = some item.Rule ∧ (e.1 = "table" → e.2 = [item.Rule]) := by
  induction items generalizing acc with
  | nil => exact Or.inl (by simpa using h)
  | cons value items ih =>
    rw [List.foldl_cons] at h
    rcases ih (addRule acc value) h with h1 | ⟨item, hi, h2⟩
    · by_cases hv : value.Name = "" ∨ value.Rule = ""
      · rw [addRule_ignored acc value hv] at h1
        exact Or.inl h1
      · simp only [not_or] at hv
        obtain ⟨v, hv1, hv2, hv3⟩ := addRule_valid acc value hv.1 hv.2
        rw [hv1] at h1
        rcases mem_mapSet _ _ _ _ h1 with h3 | h3
        · exact Or.inl h3
        · refine Or.inr ⟨value, by simp, ?_⟩
          rw [h3]
          exact ⟨rfl, hv.1, hv.2, hv2, hv3⟩
    · exact Or.inr ⟨item, List.mem_cons_of_mem _ hi, h2⟩

/-- C11: `NewSelectorCollector` returns the nil collector for a specification
with fewer than three field rules, for one in which no rule named `"table"` has
a non-empty selector path (none is named so, or the one that is has an empty
path), for one that fails `Verify`, for one whose type is not the selector
type, and for a nil specification. -/
theorem NewSelectorCollector_nil (Verify : Config → Bool) (COLLECTBYSELECTOR : Nat)
    (MakeUrls : String → List String → List String) (config : Config)
    (h : config.Items.length < 3 ∨
      (∀ item ∈ config.Items, item.Name = "table" → item.Rule = "") ∨
      Verify config = false ∨ config.CollectType ≠ COLLECTBYSELECTOR) :
    NewSelectorCollector Verify COLLECTBYSELECTOR MakeUrls (some config) = none ∧
    NewSelectorCollector Verify COLLECTBYSELECTOR MakeUrls none = none := by
  refine ⟨?_, rfl⟩
  unfold NewSelectorCollector
  simp only
  split
  · rfl
  · rename_i hg
    simp only [not_or, Bool.not_eq_true, Bool.not_eq_false', not_not, not_lt,
      Bool.not_eq_eq_eq_not, Bool.not_true] at hg
    rcases h with h | h | h | h
    · omega
    · cases hm : mapGet (buildSelectorMap config.Items) "table" with
      | none => rfl
      | some v =>
        exfalso
        have hmem := mapGet_mem _ _ _ hm
        rcases mem_foldl_addRule config.Items [] _ hmem with h1 | ⟨item, hi, hname, _, hr, _⟩
        · simp at h1
        · exact hr (h item hi hname)
    · rw [h] at hg
      simp at hg
    · exact absurd hg.2.1 h

/-- C11 on a specification with two field rules. -/
theorem NewSelectorCollector_nil_witness :
    NewSelectorCollector (fun _ => true) 0 sampleMakeUrls
      (some (sampleConfig [⟨"table", "table tr", ""⟩, ⟨"ip", "td.ip", ""⟩])) = none :=
  (NewSelectorCollector_nil (fun _ => true) 0 sampleMakeUrls
    (sampleConfig [⟨"table", "table tr", ""⟩, ⟨"ip", "td.ip", ""⟩])
    (Or.inl (by decide))).1

theorem keys_foldl_addRule (items : List ValueRule) (acc : List (String × List String))
    (hv : ∀ item ∈ items, item.Name ≠ "" ∧ item.Rule ≠ "")
    (hd : (items.map (fun item => item.Name)).Nodup)
    (hdisj : ∀ item ∈ items, mapGet acc item.Name = none) :
    (items.foldl addRule acc).map Prod.fst =
      acc.map Prod.fst ++ items.map (fun item => item.Name) := by
  induction items generalizing acc with
  | nil => simp
  | cons value items ih =>
    simp only [List.map_cons, List.nodup_cons] at hd
    obtain ⟨v, hv1, _, _⟩ := addRule_valid acc value (hv value (by simp)).1
      (hv value (by simp)).2
    have habs := hdisj value (by simp)
    rw [List.foldl_cons, hv1, mapSet_absent acc value.Name v habs]
    rw [ih (acc ++ [(value.Name, v)]) (fun item hi => hv item (List.mem_cons_of_mem _ hi))
      hd.2]
    · simp
    · intro item hi
      have hne : item.Name ≠ value.Name := by
        intro h
        apply hd.1
        rw [← h]
        exact List.mem_map_of_mem (fun item => item.Name) hi
      rw [← mapSet_absent acc value.Name v habs, mapGet_mapSet_ne _ _ _ _ hne]
      exact hdisj item (List.mem_cons_of_mem _ hi)

theorem length_le_filter_ne (m : List (String × List String)) (a : String)
    (hn : (m.map Prod.fst).Nodup) :
    m.length ≤ (m.filter (fun e => decide (e.1 ≠ a))).length + 1 := by
  induction m with
  | nil => simp
  | cons e m ih =>
    simp only [List.map_cons, List.nodup_cons] at hn
    by_cases he : e.1 = a
    · have hall : ∀ x ∈ m, decide (x.1 ≠ a) = true := by
        intro x hx
        simp only [ne_eq, decide_not, Bool.not_eq_eq_eq_not, Bool.not_true,
          decide_eq_false_iff_not]
        intro hxa
        apply hn.1
        rw [he, ← hxa]
        exact List.mem_map_of_mem Prod.fst hx
      have hf : m.filter (fun e => decide (e.1 ≠ a)) = m := List.filter_eq_self.2 hall
      have hcons : (e :: m).filter (fun e => decide (e.1 ≠ a)) =
          m.filter (fun e => decide (e.1 ≠ a)) := by
        rw [List.filter_cons]
        simp [he]
      rw [hcons, hf]
      simp
    · have hcons : (e :: m).filter (fun e => decide (e.1 ≠ a)) =
          e :: m.filter (fun e => decide (e.1 ≠ a)) := by
        rw [List.filter_cons]
        simp [he]
      rw [hcons]
      have := ih hn.2
      simp only [List.length_cons]
      omega

/-- C17 as stated fails: a specification with three field rules of which one
has an empty path is accepted (with any `Verify` that accepts it), and the
collector built from it has a single rule besides `"table"`. -/
theorem two_additional_rules_not_guaranteed :
    ¬ ∀ (Verify : Config → Bool) (COLLECTBYSELECTOR : Nat)
        (MakeUrls : String → List String → List String) (config : Config)
        (c : FullCollector),
        NewSelectorCollector Verify COLLECTBYSELECTOR MakeUrls (some config) = some c →
        2 ≤ additionalRules c.selectorMap := by
  intro h
  have := h (fun _ => true) 0 sampleMakeUrls
    (sampleConfig [⟨"table", "table tr", ""⟩, ⟨"ip", "td.ip", ""⟩, ⟨"port", "", ""⟩])
    { configuration :=
        sampleConfig [⟨"table", "table tr", ""⟩, ⟨"ip", "td.ip", ""⟩, ⟨"port", "", ""⟩],
      selectorMap := [("table", ["table tr"]), ("ip", ["td.ip"])],
      cursor := fresh ["http://proxy.example/list/1", "http://proxy.example/list/2"] }
    (by decide)
  revert this
  decide

/-- C17, amended: a collector that `NewSelectorCollector` constructs comes from
a specification with at least three field rules; its table has the `"table"`
rule, made of one non-empty selector path; every rule of the table has a
non-empty name and a non-empty selector path, those of an item of the
specification; and when all items have a non-empty name and path and pairwise
distinct names, the table has at least two rules besides `"table"`. -/
theorem NewSelectorCollector_table (Verify : Config → Bool) (COLLECTBYSELECTOR : Nat)
    (MakeUrls : String → List String → List String) (config : Config) (c : FullCollector)
    (h : NewSelectorCollector Verify COLLECTBYSELECTOR MakeUrls (some config) = some c) :
    3 ≤ config.Items.length ∧
    (∃ r, mapGet c.selectorMap "table" = some [r] ∧ r ≠ "") ∧
    (∀ e ∈ c.selectorMap, e.1 ≠ "" ∧ ∃ item ∈ config.Items,
      item.Name = e.1 ∧ item.Rule ≠ "" ∧ e.2.head? = some item.Rule) ∧
    ((∀ item ∈ config.Items, item.Name ≠ "" ∧ item.Rule ≠ "") →
      (config.Items.map (fun item => item.Name)).Nodup →
      2 ≤ additionalRules c.selectorMap) := by
  unfold NewSelectorCollector at h
  simp only at h
  split at h
  · cases h
  · rename_i hg
    simp only [not_or, not_lt] at hg
    cases hm : mapGet (buildSelectorMap config.Items) "table" with
    | none => rw [hm] at h; cases h
    | some v =>
      rw [hm] at h
      simp only at h
      split at h
      · cases h
      · simp only [Option.some.injEq] at h
        subst h
        simp only
        have horigin : ∀ e ∈ buildSelectorMap config.Items,
            ∃ item ∈ config.Items, item.Name = e.1 ∧ item.Name ≠ "" ∧ item.Rule ≠ "" ∧
              e.2.head? = some item.Rule ∧ (e.1 = "table" → e.2 = [item.Rule]) := by
          intro e he
          rcases mem_foldl_addRule config.Items [] e he with h1 | h1
          · simp at h1
          · exact h1
        refine ⟨hg.2.2, ?_, ?_, ?_⟩
        · obtain ⟨item, _, _, _, hr, _, ht⟩ := horigin _ (mapGet_mem _ _ _ hm)
          have hv : v = [item.Rule] := ht rfl
          exact ⟨item.Rule, by rw [hm, hv], hr⟩
        · intro e he
          obtain ⟨item, hi, hname, hne, hr, hhead, _⟩ := horigin e he
          exact ⟨by rw [← hname]; exact hne, item, hi, hname, hr, hhead⟩
        · intro hv hd
          have hkeys := keys_foldl_addRule config.Items [] hv hd (fun _ _ => rfl)
          simp only [List.map_nil, List.nil_append] at hkeys
          have hnodup : ((buildSelectorMap config.Items).map Prod.fst).Nodup := by
            unfold buildSelectorMap
            rw [hkeys]
            exact hd
          have hlen : (buildSelectorMap config.Items).length = config.Items.length := by
            have := congrArg List.length hkeys
            simpa [buildSelectorMap] using this
          have := length_le_filter_ne (buildSelectorMap config.Items) "table" hnodup
          unfold additionalRules
          omega

/-- C17, amended, on a specification with the rules `table`, `ip` and `port`. -/
theorem NewSelectorCollector_table_witness :
    2 ≤ additionalRules [("table", ["table tr"]), ("ip", ["td.ip"]), ("port", ["td.port"])] :=
  (NewSelectorCollector_table (fun _ => true) 0 sampleMakeUrls
    (sampleConfig [⟨"table", "table tr", ""⟩, ⟨"ip", "td.ip", ""⟩, ⟨"port", "td.port", ""⟩])
    { configuration :=
        sampleConfig [⟨"table", "table tr", ""⟩, ⟨"ip", "td.ip", ""⟩, ⟨"port", "td.port", ""⟩],
      selectorMap := [("table", ["table tr"]), ("ip", ["td.ip"]), ("port", ["td.port"])],
      cursor := fresh ["http://proxy.example/list/1", "http://proxy.example/list/2"] }
    (by decide)).2.2.2 (by decide) (by decide)

/-! ## Rows -/

theorem rowIp_ne_empty_iff (IsIp : String → Bool) (nameValue : List (String × String))
    (hIp : IsIp "" = false) :
    rowIp IsIp nameValue ≠ "" ↔ ∃ t, mapGet nameValue "ip" = some t ∧ IsIp t = true := by
  unfold rowIp
  cases hm : mapGet nameValue "ip" with
  | none => simp
  | some t =>
    by_cases ht : IsIp t = true
    · have hne : t ≠ "" := by
        intro h
        rw [h, hIp] at ht
        cases ht
      simp [ht, hne]
    · simp [ht]

theorem rowIp_of_valid (IsIp : String → Bool) (nameValue : List (String × String))
    (t : String) (hm : mapGet nameValue "ip" = some t) (ht : IsIp t = true) :
    rowIp IsIp nameValue = t := by
  simp [rowIp, hm, ht]

theorem rowResult_eq_some_iff (IsIp : String → Bool) (round : ℚ → Float64)
    (currentUrl : String) (nameValue : List (String × String)) (r : Result) :
    rowResult IsIp round currentUrl nameValue = some r ↔
      (rowIp IsIp nameValue ≠ "" ∧ rowPort nameValue > 0 ∧
        (rowSpeed round nameValue).geZero = true ∧
        (rowSpeed round nameValue).ltThree = true) ∧
      r = { Ip := rowIp IsIp nameValue, Port := rowPort nameValue,
            Location := rowLocation nameValue, Speed := rowSpeed round nameValue,
            Source := currentUrl } := by
  unfold rowResult
  by_cases h : rowIp IsIp nameValue ≠ "" ∧ rowPort nameValue > 0 ∧
      (rowSpeed round nameValue).geZero = true ∧
      (rowSpeed round nameValue).ltThree = true
  · rw [if_pos h]
    constructor
    · intro hr
      exact ⟨h, (Option.some.inj hr).symm⟩
    · rintro ⟨_, hr⟩
      rw [hr]
  · rw [if_neg h]
    constructor
    · intro hr
      cases hr
    · rintro ⟨h2, _⟩
      exact absurd h2 h

theorem addValue_eq (decoder : Option (String → String)) (sel : Selection)
    (nameValue : List (String × String)) (rule : String × List String) :
    addValue decoder sel nameValue rule =
      if rule.1 = "table" ∨ fieldText sel rule.2 = "" then nameValue
      else mapSet nameValue rule.1 (decoded decoder (fieldText sel rule.2)) := by
  unfold addValue decoded
  by_cases h1 : rule.1 = "table"
  · simp [h1]
  · by_cases h2 : fieldText sel rule.2 = ""
    · simp [h1, h2]
    · cases decoder <;> simp [h1, h2]

theorem mapGet_addValue_ne (decoder : Option (String → String)) (sel : Selection)
    (nameValue : List (String × String)) (rule : String × List String) (name : String)
    (h : name ≠ rule.1) :
    mapGet (addValue decoder sel nameValue rule) name = mapGet nameValue name := by
  rw [addValue_eq]
  split
  · rfl
  · exact mapGet_mapSet_ne _ _ _ _ h

theorem mapGet_foldl_addValue_absent (decoder : Option (String → String)) (sel : Selection)
    (m : List (String × List String)) (acc : List (String × String)) (name : String)
    (h : name = "table" ∨ mapGet m name = none) :
    mapGet (m.foldl (addValue decoder sel) acc) name = mapGet acc name := by
  induction m generalizing acc with
  | nil => rfl
  | cons e m ih =>
    obtain ⟨k, rule⟩ := e
    rw [List.foldl_cons]
    have hm : name = "table" ∨ mapGet m name = none := by
      rcases h with h | h
      · exact Or.inl h
      · by_cases hk : k = name
        · simp [mapGet, hk] at h
        · simp only [mapGet, hk, if_false] at h
          exact Or.inr h
    rw [ih _ hm]
    by_cases hk : name = k
    · rcases h with h | h
      · rw [addValue_eq]
        have : k = "table" := by rw [← hk]; exact h
        simp [this]
      · simp [mapGet, hk] at h
    · exact mapGet_addValue_ne decoder sel acc (k, rule) name hk

/-- The map `nameValue` of a row holds, under each name, the text of that field
of the row. -/
theorem mapGet_rowValues (decoder : Option (String → String)) (sel : Selection)
    (m : List (String × List String)) (name : String)
    (hn : (m.map Prod.fst).Nodup) :
    mapGet (rowValues decoder sel m) name = fieldValue decoder sel m name := by
  unfold rowValues fieldValue
  by_cases ht : name = "table"
  · rw [if_pos ht, mapGet_foldl_addValue_absent decoder sel m [] name (Or.inl ht)]
    rfl
  · rw [if_neg ht]
    suffices hgen : ∀ acc : List (String × String),
        mapGet (m.foldl (addValue decoder sel) acc) name =
          match mapGet m name with
          | some rule =>
            if fieldText sel rule = "" then mapGet acc name
            else some (decoded decoder (fieldText sel rule))
          | none => mapGet acc name by
      rw [hgen []]
      cases mapGet m name <;> rfl
    induction m with
    | nil => intro acc; rfl
    | cons e m ih =>
      intro acc
      obtain ⟨k, rule⟩ := e
      simp only [List.map_cons, List.nodup_cons] at hn
      rw [List.foldl_cons]
      by_cases hk : k = name
      · subst hk
        have habs : mapGet m k = none := (mapGet_eq_none_iff m k).2 hn.1
        rw [mapGet_foldl_addValue_absent decoder sel m _ k (Or.inr habs), addValue_eq]
        simp only [mapGet, if_true]
        by_cases hf : fieldText sel rule = ""
        · simp [hf]
        · simp [hf, ht, mapGet_mapSet_self]
      · rw [ih hn.2, mapGet_addValue_ne decoder sel acc (k, rule) name (fun h => hk h.symm)]
        simp only [mapGet, hk, if_false]

theorem rowResult_eq_some_iff_fields (IsIp : String → Bool) (round : ℚ → Float64)
    (currentUrl : String) (nameValue : List (String × String)) (r : Result)
    (hIp : IsIp "" = false) :
    rowResult IsIp round currentUrl nameValue = some r ↔
      mapGet nameValue "ip" = some r.Ip ∧ IsIp r.Ip = true ∧
      r.Port = rowPort nameValue ∧ r.Port > 0 ∧
      r.Speed = rowSpeed round nameValue ∧ r.Speed.geZero = true ∧
      r.Speed.ltThree = true ∧
      r.Location = rowLocation nameValue ∧ r.Source = currentUrl := by
  rw [rowResult_eq_some_iff]
  constructor
  · rintro ⟨⟨h1, h2, h3, h4⟩, hr⟩
    obtain ⟨t, hm, hv⟩ := (rowIp_ne_empty_iff IsIp nameValue hIp).1 h1
    have hip := rowIp_of_valid IsIp nameValue t hm hv
    rw [hr]
    refine ⟨?_, ?_, rfl, h2, rfl, h3, h4, rfl, rfl⟩
    · show mapGet nameValue "ip" = some (rowIp IsIp nameValue)
      rw [hip]
      exact hm
    · show IsIp (rowIp IsIp nameValue) = true
      rw [hip]
      exact hv
  · rintro ⟨h1, h2, h3, h4, h5, h6, h7, h8, h9⟩
    have hip := rowIp_of_valid IsIp nameValue r.Ip h1 h2
    refine ⟨⟨(rowIp_ne_empty_iff IsIp nameValue hIp).2 ⟨r.Ip, h1, h2⟩, ?_, ?_, ?_⟩, ?_⟩
    · rw [← h3]; exact h4
    · rw [← h5]; exact h6
    · rw [← h5]; exact h7
    · obtain ⟨ip, port, location, speed, source⟩ := r
      simp only at h3 h5 h8 h9 hip
      rw [hip, ← h3, ← h5, ← h8, h9]

/-- C12: on the path where the page is fetched and parsed (the table of rules
having distinct names, as a Go map has), `Collect` returns no error and sends,
in the order of the rows, one record for each row that passes the gate and
nothing for the others.  A record `r` is the one sent for a row exactly when
the row's address text is present, is `r`'s address and is valid (`IsIp`
rejecting the empty text), `r`'s port is the value parsed from the row's port
text (0 without one) and is above 0, `r`'s latency is the one parsed from the
row's latency text (0 without one or without the marker) and is at least 0 and
below 3, `r`'s location is the row's location text (empty if there is none)
and `r`'s source is the current URL. -/
theorem Collect_rows (env : Env) (c : FullCollector) (response : Response)
    (doc : String → List Selection) (path : String) (rest : List String)
    (hIp : env.IsIp "" = false) (hs : response.StatusCode = 200)
    (hd : response.document = .ok doc)
    (ht : mapGet c.selectorMap "table" = some (path :: rest))
    (hmap : (c.selectorMap.map Prod.fst).Nodup) :
    Collect env c (some response) [] =
      { events := ((doc path).filterMap (fun sel =>
          rowResult env.IsIp env.round c.cursor.currentUrl
            (rowValues (decoderOf env c.configuration.Charset) sel
              c.selectorMap))).map ChanEvent.send ++ [.close],
        returned := some [] } ∧
    ∀ (sel : Selection) (r : Result),
      rowResult env.IsIp env.round c.cursor.currentUrl
        (rowValues (decoderOf env c.configuration.Charset) sel c.selectorMap) = some r ↔
      fieldValue (decoderOf env c.configuration.Charset) sel c.selectorMap "ip" =
        some r.Ip ∧
      env.IsIp r.Ip = true ∧
      r.Port =
        (match fieldValue (decoderOf env c.configuration.Charset) sel c.selectorMap
            "port" with
         | some tempPort => (Atoi tempPort).1
         | none => 0) ∧
      r.Port > 0 ∧
      r.Speed =
        (match fieldValue (decoderOf env c.configuration.Charset) sel c.selectorMap
            "speed" with
         | some tempSpeed =>
           if '秒' ∈ tempSpeed.toList then ParseFloat env.round (FindString tempSpeed)
           else .finite 0
         | none => .finite 0) ∧
      r.Speed.geZero = true ∧ r.Speed.ltThree = true ∧
      r.Location =
        (fieldValue (decoderOf env c.configuration.Charset) sel c.selectorMap
          "location").getD "" ∧
      r.Source = c.cursor.currentUrl := by
  refine ⟨?_, ?_⟩
  · unfold Collect
    simp [hs, hd, ht, sentRecords]
  · intro sel r
    rw [rowResult_eq_some_iff_fields _ _ _ _ _ hIp]
    unfold rowPort rowSpeed rowLocation
    rw [mapGet_rowValues _ sel c.selectorMap "ip" hmap,
      mapGet_rowValues _ sel c.selectorMap "port" hmap,
      mapGet_rowValues _ sel c.selectorMap "speed" hmap,
      mapGet_rowValues _ sel c.selectorMap "location" hmap]
    have hloc : ∀ o : Option String,
        (match o with
         | some tempLocation => tempLocation
         | none => "") = o.getD "" := by
      intro o
      cases o <;> rfl
    rw [hloc]

/-- C12 on a page of three rows, of which the second has no valid address and
the third the port 0: one record is sent, for the first row. -/
theorem Collect_rows_witness :
    Collect sampleEnv sampleCollector
      (some { StatusCode := 200,
              document := .ok (fun _ =>
                [sampleRow [("td.ip", "192.168.1.1"), ("td.port", "8080"),
                   ("td.location", "Shanghai")],
                 sampleRow [("td.ip", "not-an-ip"), ("td.port", "8080")],
                 sampleRow [("td.ip", "10.0.0.1"), ("td.port", "0"),
                   ("td.speed", "1秒")]]) }) [] =
      { events := [.send { Ip := "192.168.1.1", Port := 8080, Location := "Shanghai",
                           Speed := .finite 0, Source := "http://proxy.example/list/1" },
                   .close],
        returned := some [] } :=
  (Collect_rows sampleEnv sampleCollector
    { StatusCode := 200,
      document := .ok (fun _ =>
        [sampleRow [("td.ip", "192.168.1.1"), ("td.port", "8080"),
           ("td.location", "Shanghai")],
         sampleRow [("td.ip", "not-an-ip"), ("td.port", "8080")],
         sampleRow [("td.ip", "10.0.0.1"), ("td.port", "0"),
           ("td.speed", "1秒")]]) }
    (fun _ =>
        [sampleRow [("td.ip", "192.168.1.1"), ("td.port", "8080"),
           ("td.location", "Shanghai")],
         sampleRow [("td.ip", "not-an-ip"), ("td.port", "8080")],
         sampleRow [("td.ip", "10.0.0.1"), ("td.port", "0"),
           ("td.speed", "1秒")]])
    "table tr" [] (by decide) rfl rfl (by decide) (by decide)).1.trans (by decide)

/-- C14: a row with a valid address and a parsed port above 0 whose latency
text is missing or lacks the marker `秒` has latency 0 and is sent with it,
whatever the latency text holds. -/
theorem row_without_marker (IsIp : String → Bool) (round : ℚ → Float64)
    (currentUrl : String) (nameValue : List (String × String))
    (hIp : IsIp "" = false)
    (haddr : ∃ t, mapGet nameValue "ip" = some t ∧ IsIp t = true)
    (hport : rowPort nameValue > 0)
    (hspeed : ∀ t, mapGet nameValue "speed" = some t → '秒' ∉ t.toList) :
    rowSpeed round nameValue = .finite 0 ∧
    ∃ r, rowResult IsIp round currentUrl nameValue = some r ∧ r.Speed = .finite 0 := by
  have hs : rowSpeed round nameValue = .finite 0 := by
    unfold rowSpeed
    cases hm : mapGet nameValue "speed" with
    | none => rfl
    | some t =>
      show (if '秒' ∈ t.toList then ParseFloat round (FindString t) else .finite 0) = _
      rw [if_neg (hspeed t hm)]
  refine ⟨hs, _, (rowResult_eq_some_iff _ _ _ _ _).2 ⟨⟨?_, hport, ?_, ?_⟩, rfl⟩, hs⟩
  · exact (rowIp_ne_empty_iff IsIp nameValue hIp).2 haddr
  · rw [hs]; decide
  · rw [hs]; decide

/-- C14 on a row whose latency text is `5` without the marker. -/
theorem row_without_marker_witness :
    rowSpeed Float64.finite [("ip", "192.168.1.1"), ("port", "8080"), ("speed", "5")] =
      .finite 0 :=
  (row_without_marker sampleIsIp Float64.finite "http://proxy.example/list/1"
    [("ip", "192.168.1.1"), ("port", "8080"), ("speed", "5")]
    (by decide) ⟨"192.168.1.1", by decide, by decide⟩ (by decide)
    (by intro t ht; cases (show t = "5" from by
          simp [mapGet] at ht; exact ht.symm); decide)).1

/-! ## Collect -/

/-- C15: however `Collect` ends (errors returned, records sent, or a panic), the
events on the channel are the records sent followed by one `close`: the channel
is closed exactly once, after every record. -/
theorem Collect_closes_once (env : Env) (c : FullCollector) (response : Option Response)
    (errs : List String) :
    ∃ rs : List Result, (Collect env c response errs).events =
      rs.map ChanEvent.send ++ [.close] := by
  unfold Collect
  cases response with
  | none => exact ⟨[], rfl⟩
  | some response =>
    simp only
    split
    · exact ⟨[], rfl⟩
    · split
      · exact ⟨[], rfl⟩
      · split
        · exact ⟨[], rfl⟩
        · split
          · exact ⟨_, rfl⟩
          · exact ⟨[], rfl⟩

/-- With a response that is not nil, `Collect` returns the transport errors if
there are any, else one error for a status other than 200, else one error for a
document that does not parse. -/
theorem Collect_errors_of_response (env : Env) (c : FullCollector) (response : Response)
    (errs : List String) :
    (errs ≠ [] → Collect env c (some response) errs =
      { events := [.close], returned := some errs }) ∧
    (errs = [] → response.StatusCode ≠ 200 →
      ∃ e, Collect env c (some response) errs =
        { events := [.close], returned := some [e] }) ∧
    (errs = [] → response.StatusCode = 200 → ∀ err, response.document = .error err →
      ∃ e, Collect env c (some response) errs =
        { events := [.close], returned := some [e] }) := by
  refine ⟨?_, ?_, ?_⟩
  · intro h
    have : errs.length > 0 := List.length_pos.2 h
    simp [Collect, this]
  · intro h hs
    subst h
    exact ⟨"GET " ++ c.cursor.currentUrl ++ " failed, status code:" ++
      env.StatusText response.StatusCode, by simp [Collect, hs]⟩
  · intro h hs err hd
    subst h
    exact ⟨"parse " ++ c.cursor.currentUrl ++ " error:" ++ err,
      by simp [Collect, hs, hd]⟩

/-- C16, evaluated on the code: when the fetch fails, `gorequest` hands back a
nil response with the transport errors; `Collect` reads `response.Body` before
it looks at the errors, so the call panics, closing the channel on the way, and
returns no error list. -/
theorem Collect_panics_on_transport_error :
    Collect sampleEnv sampleCollector none ["dial tcp: connection refused"] =
      { events := [.close], returned := none } ∧
    (Collect sampleEnv sampleCollector none ["dial tcp: connection refused"]).returned ≠
      some ["dial tcp: connection refused"] := by
  decide

/-! ## Ports -/

theorem rowResult_none_of_port (IsIp : String → Bool) (round : ℚ → Float64)
    (currentUrl : String) (nameValue : List (String × String))
    (h : rowPort nameValue ≤ 0) : rowResult IsIp round currentUrl nameValue = none := by
  unfold rowResult
  have : ¬ rowPort nameValue > 0 := by omega
  simp [this]

/-- C19, evaluated on the code: a row with the port text `99999999999999999999`
is sent with the port 9223372036854775807, the value `Atoi` returns with its
range error, and so is a row whose port text is that number followed by `x`,
which is not an integer literal. -/
theorem row_port_out_of_range :
    rowResult sampleIsIp Float64.finite "http://proxy.example/list/1"
      [("ip", "192.168.1.1"), ("port", "99999999999999999999")] =
      some { Ip := "192.168.1.1", Port := 9223372036854775807, Location := "",
             Speed := .finite 0, Source := "http://proxy.example/list/1" } ∧
    Atoi "99999999999999999999" = (9223372036854775807, some .outOfRange) ∧
    rowResult sampleIsIp Float64.finite "http://proxy.example/list/1"
      [("ip", "192.168.1.1"), ("port", "99999999999999999999x")] =
      some { Ip := "192.168.1.1", Port := 9223372036854775807, Location := "",
             Speed := .finite 0, Source := "http://proxy.example/list/1" } ∧
    Atoi "99999999999999999999x" = (9223372036854775807, some .outOfRange) := by
  decide

/-! ## Latency -/

theorem takeWhile_append_stop (p : Char → Bool) (l rest : List Char)
    (hl : l.all p = true) (hr : ∀ r tl, rest = r :: tl → p r = false) :
    (l ++ rest).takeWhile p = l ∧ (l ++ rest).dropWhile p = rest := by
  induction l with
  | nil =>
    cases rest with
    | nil => simp
    | cons r tl => simp [List.takeWhile, List.dropWhile, hr r tl rfl]
  | cons a l ih =>
    simp only [List.all_cons, Bool.and_eq_true] at hl
    obtain ⟨h1, h2⟩ := ih hl.2
    simp [List.takeWhile, List.dropWhile, hl.1, h1, h2]

theorem isDigit_of_isNonzeroDigit (c : Char) (h : isNonzeroDigit c = true) :
    isDigit c = true := by
  simp only [isNonzeroDigit, isDigit, decide_eq_true_eq] at h ⊢
  refine ⟨?_, h.2⟩
  have h0 : ('0' : Char) ≤ '1' := by decide
  exact le_trans h0 h.1

theorem isDigit_ne_point (c : Char) (h : isDigit c = true) : c ≠ '.' := by
  intro hc
  rw [hc] at h
  revert h
  decide

theorem FindString_plain (d rest : List Char) (hd : PlainDecimal d) (hr : EndsNumber rest) :
    FindString (String.mk (d ++ rest)) = String.mk d := by
  have hrd : ∀ r tl, rest = r :: tl → isDigit r = false := fun r tl h => (hr r tl h).1
  have hrp : ∀ r tl, rest = r :: tl → (fun x : Char => decide (x = '.')) r = false := by
    intro r tl h
    simp [(hr r tl h).2]
  rcases hd with ⟨c, ds, hd, hc, hds⟩ | ⟨c, ds, fs, hd, hc, hds, hfs⟩ | ⟨fs, hd, hfs, hnz⟩
  · subst hd
    obtain ⟨t1, d1⟩ := takeWhile_append_stop isDigit ds rest hds hrd
    obtain ⟨t2, d2⟩ := takeWhile_append_stop (fun x : Char => decide (x = '.')) [] rest rfl hrp
    obtain ⟨t3, _⟩ := takeWhile_append_stop isDigit [] rest rfl hrd
    simp only [List.nil_append] at t2 d2 t3
    show (match matchAnchored (c :: (ds ++ rest)) with
      | some m => String.mk m
      | none => _) = _
    simp only [matchAnchored, hc, if_true, t1, d1, t2, d2, t3, List.append_nil]
  · subst hd
    have hpoint : ∀ r tl, '.' :: (fs ++ rest) = r :: tl → isDigit r = false := by
      intro r tl h
      simp only [List.cons.injEq] at h
      rw [← h.1]
      decide
    have hafter : ∀ r tl, fs ++ rest = r :: tl →
        (fun x : Char => decide (x = '.')) r = false := by
      intro r tl h
      cases fs with
      | nil => exact hrp r tl (by simpa using h)
      | cons f fs2 =>
        simp only [List.cons_append, List.cons.injEq] at h
        simp only [List.all_cons, Bool.and_eq_true] at hfs
        rw [← h.1]
        simp [isDigit_ne_point f hfs.1]
    obtain ⟨t1, d1⟩ := takeWhile_append_stop isDigit ds ('.' :: (fs ++ rest)) hds hpoint
    obtain ⟨t2, d2⟩ := takeWhile_append_stop (fun x : Char => decide (x = '.')) ['.']
      (fs ++ rest) (by decide) hafter
    obtain ⟨t3, _⟩ := takeWhile_append_stop isDigit fs rest hfs hrd
    simp only [List.singleton_append] at t2 d2
    have happ : c :: (ds ++ '.' :: fs) ++ rest = c :: (ds ++ '.' :: (fs ++ rest)) := by
      simp
    rw [happ]
    show (match matchAnchored (c :: (ds ++ '.' :: (fs ++ rest))) with
      | some m => String.mk m
      | none => _) = _
    simp only [matchAnchored, hc, if_true, t1, d1, t2, d2, t3, List.singleton_append]
  · subst hd
    obtain ⟨t1, _⟩ := takeWhile_append_stop isDigit fs rest hfs hrd
    show (match matchAnchored ('0' :: '.' :: (fs ++ rest)) with
      | some m => String.mk m
      | none =>
        match findZeroPoint ('0' :: '.' :: (fs ++ rest)) with
        | some m => String.mk m
        | none => "") = _
    have h0 : isNonzeroDigit '0' = false := by decide
    simp only [matchAnchored, h0, Bool.false_eq_true, if_false, findZeroPoint, matchZeroPoint,
      t1, hnz, if_true]

theorem decimalParts_plain (d : List Char) (hd : PlainDecimal d) :
    ∃ parts, decimalParts d = some parts := by
  have hnil : ∀ r tl, ([] : List Char) = r :: tl → isDigit r = false := by
    intro r tl h
    cases h
  rcases hd with ⟨c, ds, hd, hc, hds⟩ | ⟨c, ds, fs, hd, hc, hds, hfs⟩ | ⟨fs, hd, hfs, hnz⟩
  · subst hd
    have hall : (c :: ds).all isDigit = true := by
      simp only [List.all_cons, Bool.and_eq_true]
      exact ⟨isDigit_of_isNonzeroDigit c hc, hds⟩
    obtain ⟨_, d1⟩ := takeWhile_append_stop isDigit (c :: ds) [] hall hnil
    simp only [List.append_nil] at d1
    exact ⟨(digitsValue (c :: ds), 0), by simp [decimalParts, d1]⟩
  · subst hd
    have hall : (c :: ds).all isDigit = true := by
      simp only [List.all_cons, Bool.and_eq_true]
      exact ⟨isDigit_of_isNonzeroDigit c hc, hds⟩
    have hpoint : ∀ r tl, '.' :: fs = r :: tl → isDigit r = false := by
      intro r tl h
      simp only [List.cons.injEq] at h
      rw [← h.1]
      decide
    obtain ⟨t1, d1⟩ := takeWhile_append_stop isDigit (c :: ds) ('.' :: fs) hall hpoint
    simp only [List.cons_append] at t1 d1
    exact ⟨(digitsValue (c :: (ds ++ fs)), fs.length), by simp [decimalParts, t1, d1, hfs]⟩
  · subst hd
    have hpoint : ∀ r tl, '.' :: fs = r :: tl → isDigit r = false := by
      intro r tl h
      simp only [List.cons.injEq] at h
      rw [← h.1]
      decide
    obtain ⟨t1, d1⟩ := takeWhile_append_stop isDigit ['0'] ('.' :: fs) (by decide) hpoint
    simp only [List.singleton_append] at t1 d1
    exact ⟨(digitsValue ('0' :: fs), fs.length), by simp [decimalParts, t1, d1, hfs]⟩

theorem rowSpeed_marked (round : ℚ → Float64) (nameValue : List (String × String))
    (t : String) (hm : mapGet nameValue "speed" = some t) (hmark : '秒' ∈ t.toList) :
    rowSpeed round nameValue = ParseFloat round (FindString t) := by
  unfold rowSpeed
  rw [hm]
  show (if '秒' ∈ t.toList then ParseFloat round (FindString t) else .finite 0) = _
  rw [if_pos hmark]

theorem ParseFloat_of_parts (round : ℚ → Float64) (s : String) (parts : Nat × Nat)
    (h : decimalParts s.toList = some parts) :
    ParseFloat round s = round (decimalValue parts) := by
  unfold ParseFloat
  rw [h]

theorem decimalValue_nonneg (parts : Nat × Nat) : 0 ≤ decimalValue parts := by
  unfold decimalValue
  positivity

/-- C13 as stated fails: the latency text `05秒` has the marker and begins with
the decimal number `05`, which is 5, but the pattern does not match a number
that starts with `0` unless `0.` follows, so the latency is 0 and the row is
sent. -/
theorem latency_with_leading_zero :
    '秒' ∈ "05秒".toList ∧ FindString "05秒" = "" ∧
    rowSpeed Float64.finite [("ip", "192.168.1.1"), ("port", "8080"), ("speed", "05秒")] =
      .finite 0 ∧
    rowResult sampleIsIp Float64.finite "http://proxy.example/list/1"
      [("ip", "192.168.1.1"), ("port", "8080"), ("speed", "05秒")] =
      some { Ip := "192.168.1.1", Port := 8080, Location := "", Speed := .finite 0,
             Source := "http://proxy.example/list/1" } := by
  decide

/-- C13, amended: for a latency text with the marker `秒` that begins with a
decimal number `d` in one of the shapes of the pattern (a digit other than 0
followed by digits, alone or with a point and digits; or `0.` followed by digits
of which one is not 0) and does not go on with a digit or a point, the parsed
latency is the `float64` that `strconv.ParseFloat` gives `d`, the rounding of
its exact value; a row with a valid address and a port above 0 is then sent
exactly when that `float64` is at least 0 and below 3, which, when the value of
`d` is read exactly, is when it is below 3.  In particular, 0.5 and 5 being read
exactly, the row with address `192.168.1.1`, port text `8080` and latency text
`0.5秒` is sent with latency 0.5, and the same row with `5秒` is not sent. -/
theorem latency_of_plain_decimal (IsIp : String → Bool) (round : ℚ → Float64)
    (currentUrl : String) (nameValue : List (String × String)) (d rest : List Char)
    (hd : PlainDecimal d) (hr : EndsNumber rest) (hmark : '秒' ∈ d ++ rest)
    (hm : mapGet nameValue "speed" = some (String.mk (d ++ rest))) :
    (∃ parts, decimalParts d = some parts ∧
      rowSpeed round nameValue = round (decimalValue parts) ∧
      ((∃ t, mapGet nameValue "ip" = some t ∧ IsIp t = true ∧ t ≠ "") →
        rowPort nameValue > 0 →
        ((rowResult IsIp round currentUrl nameValue ≠ none ↔
          (round (decimalValue parts)).geZero = true ∧
          (round (decimalValue parts)).ltThree = true) ∧
         (round (decimalValue parts) = .finite (decimalValue parts) →
          (rowResult IsIp round currentUrl nameValue ≠ none ↔ decimalValue parts < 3))))) ∧
    (IsIp "192.168.1.1" = true → round (decimalValue (5, 1)) = .finite (1 / 2) →
      rowResult IsIp round currentUrl
        [("ip", "192.168.1.1"), ("port", "8080"), ("speed", "0.5秒")] =
        some { Ip := "192.168.1.1", Port := 8080, Location := "", Speed := .finite (1 / 2),
               Source := currentUrl }) ∧
    (round (decimalValue (5, 0)) = .finite 5 →
      rowResult IsIp round currentUrl
        [("ip", "192.168.1.1"), ("port", "8080"), ("speed", "5秒")] = none) := by
  refine ⟨?_, ?_, ?_⟩
  · obtain ⟨parts, hp⟩ := decimalParts_plain d hd
    have hspeed : rowSpeed round nameValue = round (decimalValue parts) := by
      rw [rowSpeed_marked round nameValue _ hm hmark, FindString_plain d rest hd hr]
      exact ParseFloat_of_parts round (String.mk d) parts hp
    refine ⟨parts, hp, hspeed, ?_⟩
    intro haddr hport
    have hip : rowIp IsIp nameValue ≠ "" := by
      obtain ⟨t, h1, h2, h3⟩ := haddr
      rw [rowIp_of_valid IsIp nameValue t h1 h2]
      exact h3
    have hgate : rowResult IsIp round currentUrl nameValue ≠ none ↔
        (round (decimalValue parts)).geZero = true ∧
        (round (decimalValue parts)).ltThree = true := by
      unfold rowResult
      rw [hspeed]
      split
      · rename_i h
        simp [h.2.2]
      · rename_i h
        simp only [ne_eq, not_true_eq_false, false_iff]
        intro h2
        exact h ⟨hip, hport, h2⟩
    refine ⟨hgate, ?_⟩
    intro hexact
    rw [hgate, hexact]
    have := decimalValue_nonneg parts
    simp [Float64.geZero, Float64.ltThree, this]
  · intro h1 h2
    have hs : rowSpeed round [("ip", "192.168.1.1"), ("port", "8080"), ("speed", "0.5秒")] =
        .finite (1 / 2) := by
      rw [rowSpeed_marked round _ "0.5秒" (by decide) (by decide),
        show FindString "0.5秒" = "0.5" from by decide,
        ParseFloat_of_parts round "0.5" (5, 1) (by decide), h2]
    have hip : rowIp IsIp [("ip", "192.168.1.1"), ("port", "8080"), ("speed", "0.5秒")] =
        "192.168.1.1" := rowIp_of_valid IsIp _ "192.168.1.1" (by decide) h1
    rw [rowResult_eq_some_iff]
    rw [hs, hip]
    refine ⟨⟨by decide, by decide, ?_, ?_⟩, ?_⟩
    · simp [Float64.geZero]
    · simp only [Float64.ltThree, decide_eq_true_eq]
      norm_num
    · have hport : rowPort [("ip", "192.168.1.1"), ("port", "8080"), ("speed", "0.5秒")] =
          8080 := by decide
      have hloc : rowLocation [("ip", "192.168.1.1"), ("port", "8080"), ("speed", "0.5秒")] =
          "" := by decide
      rw [hport, hloc]
  · intro h2
    have hs : rowSpeed round [("ip", "192.168.1.1"), ("port", "8080"), ("speed", "5秒")] =
        .finite 5 := by
      rw [rowSpeed_marked round _ "5秒" (by decide) (by decide),
        show FindString "5秒" = "5" from by decide,
        ParseFloat_of_parts round "5" (5, 0) (by decide), h2]
    unfold rowResult
    rw [hs]
    have : (Float64.finite 5).ltThree = false := by decide
    simp [this]

/-- C13, amended, on the latency text `2.5秒`. -/
theorem latency_of_plain_decimal_witness :
    ∃ parts, decimalParts ['2', '.', '5'] = some parts ∧
      rowSpeed Float64.finite [("speed", String.mk (['2', '.', '5'] ++ ['秒']))] =
        Float64.finite (decimalValue parts) :=
  match (latency_of_plain_decimal sampleIsIp Float64.finite "http://proxy.example/list/1"
    [("speed", String.mk (['2', '.', '5'] ++ ['秒']))] ['2', '.', '5'] ['秒']
    (Or.inr (Or.inl ⟨'2', [], ['5'], rfl, by decide, by decide, by decide⟩))
    (by intro r tl h; cases h; decide) (by decide) (by decide)).1 with
  | ⟨parts, h1, h2, _⟩ => ⟨parts, h1, h2⟩

end Collector
